import Mathlib

/-!
Verification development for the `HTMLBuilder` templating engine of the
ContextMenu repository (file `src/unnamed/part_000`, the compiled engine).

JavaScript strings are modelled as `List Char`.  Browser DOM elements are
modelled by the pure structure `ElementData` together with the rose tree
`DomTree`; DOM mutation (`prepend`, `appendChild`, `setAttribute`,
`classList.add`, `addEventListener`) is modelled by pure updates on those
structures.  Each element carries, as ghost data, the index of the template
line it was created from (the loop counters `i` and `k` of `generate`); the
reconstruction algorithm never reads this index, it is used only to state
order-preservation properties.

The single regular expression
`/(\w+)((?:\.[\w-]*)*)*(#[\w-]*)?(?:\((.*)\))?(?:\[(.*)\])?(?:\@([\w;-]*))*/`
is embedded as the deterministic scanner `execRegex`; a documentation
comment on that definition justifies the translation of the JavaScript
backtracking semantics group by group.
-/

set_option maxHeartbeats 1000000

namespace ContextMenu

/-- Whitespace as trimmed by `String.prototype.trim` (restricted to the
ASCII whitespace characters, which is exact for every input considered
here). -/
def wsB (c : Char) : Bool :=
  c = ' ' || c = '\t' || c = '\n' || c = '\r'

/-- Model of `s.trim()`: drop whitespace from both ends. -/
def trimChars (s : List Char) : List Char :=
  ((s.dropWhile wsB).reverse.dropWhile wsB).reverse

/-- Model of `s.split(sep)` for a single-character separator `sep`
(the engine splits on the fixed literals `"\n"`, `"."`, `"="` and `";"`). -/
def splitOnChar (sep : Char) : List Char → List (List Char)
  | [] => [[]]
  | c :: rest =>
    if c = sep then [] :: splitOnChar sep rest
    else
      match splitOnChar sep rest with
      | [] => [[c]]
      | h :: t => (c :: h) :: t

/-- Splits `s` at the first occurrence of `pat`: returns the part strictly
before the occurrence and the part strictly after it, or `none` when `pat`
does not occur.  An empty `pat` occurs at position 0, as in JavaScript. -/
def firstOccSplit (pat : List Char) : List Char → Option (List Char × List Char)
  | [] => if pat.isEmpty then some ([], []) else none
  | c :: rest =>
    if pat.isPrefixOf (c :: rest) then some ([], (c :: rest).drop pat.length)
    else
      match firstOccSplit pat rest with
      | some (a, b) => some (c :: a, b)
      | none => none

/-- Model of `s.replace(pat, rep)` with a string pattern: replace the first
occurrence only. -/
def replaceFirstStr (pat rep s : List Char) : List Char :=
  match firstOccSplit pat s with
  | some (a, b) => a ++ rep ++ b
  | none => s

/-- Worker for `splitOnStr`; the fuel argument only establishes structural
recursion and is always sufficient, since every recursive call strictly
shrinks the string. -/
def splitOnStrGo (pat : List Char) : Nat → List Char → List (List Char)
  | 0, s => [s]
  | fuel + 1, s =>
    match firstOccSplit pat s with
    | some (a, b) => a :: splitOnStrGo pat fuel b
    | none => [s]

/-- Model of `s.split(pat)` with an arbitrary string separator (used for the
configurable `SYMBOL_BETWEEN_ATTRIBUTES`).  An empty separator splits into
single characters, as in JavaScript. -/
def splitOnStr (pat s : List Char) : List (List Char) :=
  if pat.isEmpty then s.map (fun c => [c])
  else splitOnStrGo pat (s.length + 1) s

/-- Embedding of `_level` (source lines 283-294): count of leading `>`
characters. -/
def jsLevel : List Char → Nat
  | [] => 0
  | c :: rest => if c = '>' then jsLevel rest + 1 else 0

/-- Embedding of the loop body of `_extractLinesFrom` (source lines
304-309).  The JavaScript loop trims `lines[i]` in place and, when the
trimmed line is empty, splices it out *without decrementing `i`*; the
element that shifts into position `i` is therefore skipped entirely (kept
untrimmed and unchecked).  The recursion mirrors this exactly: after a
removal, the next list element `y` is kept as is and processing resumes
behind it. -/
def extractLoop : List (List Char) → List (List Char)
  | [] => []
  | x :: rest =>
    if (trimChars x).isEmpty then
      match rest with
      | [] => []
      | y :: rest2 => y :: extractLoop rest2
    else trimChars x :: extractLoop rest

/-- Embedding of `_extractLinesFrom` (source lines 302-311):
`template.trim().split("\n")` followed by the trim/splice loop. -/
def extractLinesFrom (template : List Char) : List (List Char) :=
  extractLoop (splitOnChar '\n' (trimChars template))

/-- Embedding of `indentTemplate` (source lines 268-275): prepend
`indentation` many `>` markers to each extracted line, joining with
newlines, and trim the result. -/
def indentTemplate (template : List Char) (indentation : Nat := 1) : List Char :=
  trimChars ((extractLinesFrom template).foldl
    (fun acc line => acc ++ List.replicate indentation '>' ++ trimChars line ++ ['\n']) [])

/-- An entry of the `EVENTS` registry.  The callback function and the
dispatch options are opaque to the engine; they are modelled by tokens. -/
structure EventBinding where
  name : List Char
  type : List Char
  callback : Nat
  options : Option Nat
deriving DecidableEq

/-- The argument object of `bindEvent`; each field may be absent
(`undefined`). -/
structure BindArg where
  name : Option (List Char)
  type : Option (List Char)
  callback : Option Nat
  options : Option Nat

/-- Mutable state of an `HTMLBuilder` instance: the attribute delimiter and
the event registry (the regular expression is a constant and the parent
element is outside the engine's data model). -/
structure Builder where
  SYMBOL_BETWEEN_ATTRIBUTES : List Char
  EVENTS : List EventBinding
deriving DecidableEq

/-- Errors thrown by the engine. -/
inductive JsError where
  | parseLine (line : List Char)
  | bindEventNoName
  | bindEventNoType
  | bindEventNoCallback
deriving DecidableEq

/-- JavaScript falsiness of an optional string: `undefined` and `""` are
falsy. -/
def jsFalsyStr : Option (List Char) → Bool
  | none => true
  | some s => s.isEmpty

/-- Embedding of `bindEvent` (source lines 228-239).  Throwing is modelled
by returning `some` error together with the *unchanged* builder; on success
the binding is pushed onto `EVENTS`, with a leading `"on"` stripped from the
name by `name.replace("on", "")` (first occurrence). -/
def bindEvent (b : Builder) (e : BindArg) : Option JsError × Builder :=
  if jsFalsyStr e.name then (some .bindEventNoName, b)
  else if jsFalsyStr e.type then (some .bindEventNoType, b)
  else if e.callback.isNone then (some .bindEventNoCallback, b)
  else
    let n0 := e.name.getD []
    let n := if (['o', 'n']).isPrefixOf n0 then replaceFirstStr ['o', 'n'] [] n0 else n0
    (none, { b with EVENTS := b.EVENTS ++ [⟨n, e.type.getD [], e.callback.getD 0, e.options⟩] })

/-- Embedding of `clearEvents` (source lines 245-247). -/
def clearEvents (b : Builder) : Builder :=
  { b with EVENTS := [] }

/-- Embedding of `changeSymbolBetweenAttributes` (source lines 258-260). -/
def changeSymbolBetweenAttributes (b : Builder) (symbol : List Char) : Builder :=
  { b with SYMBOL_BETWEEN_ATTRIBUTES := symbol }

/-- Embedding of `_searchForEvent` (source lines 332-339): scan the
registry front to back and return the first binding whose stored name
equals the key, `null` (here `none`) otherwise. -/
def searchForEvent (events : List EventBinding) (name : List Char) : Option EventBinding :=
  events.find? (fun ev => name == ev.name)

/-- A DOM element tree: a payload and the list of child elements in
document order.  Text nodes are part of the payload (`ElementData.text`),
matching the engine, which only ever appends one text child per element. -/
inductive DomTree (α : Type) where
  | node : α → List (DomTree α) → DomTree α

/-- Model of `parent.prepend(child)`: insert as first child. -/
def prependChild {α : Type} (parent child : DomTree α) : DomTree α :=
  match parent with
  | .node a cs => .node a (child :: cs)

/-- The pure data of one DOM element as the engine constructs it: tag name,
class list, id, optional text content, attribute list, and the event
listeners attached via `addEventListener` (type, callback, options). -/
structure ElementData where
  tag : List Char
  classes : List (List Char)
  id : List Char
  text : Option (List Char)
  attributes : List (List Char × List Char)
  listeners : List (List Char × Nat × Option Nat)
deriving DecidableEq

/-- `\w` of the JavaScript regular expression: `[A-Za-z0-9_]`. -/
def isWordChar (c : Char) : Bool :=
  c.isAlpha || c.isDigit || c = '_'

/-- `[\w-]`. -/
def isWordHyphenChar (c : Char) : Bool :=
  isWordChar c || c = '-'

/-- `[\w;-]`. -/
def isWordSemiHyphenChar (c : Char) : Bool :=
  isWordChar c || c = ';' || c = '-'

/-- Scanner for `((?:\.[\w-]*)*)*`: greedily consume `.`-introduced class
tokens; returns the consumed run and the remaining input.  Each iteration
consumes at least the `.`, so the string length is sufficient fuel. -/
def scanClassesGo : Nat → List Char → List Char × List Char
  | 0, s => ([], s)
  | fuel + 1, s =>
    match s with
    | '.' :: rest =>
      let tok := rest.takeWhile isWordHyphenChar
      let rest2 := rest.dropWhile isWordHyphenChar
      let (more, fin) := scanClassesGo fuel rest2
      ('.' :: (tok ++ more), fin)
    | _ => ([], s)

/-- Capture of group 2: the run of class tokens, or unset when no `.`
follows the tag (a quantified group that matches only the empty string does
not record a capture in JavaScript). -/
def scanClasses (s : List Char) : Option (List Char) × List Char :=
  let p := scanClassesGo (s.length + 1) s
  (if p.1.isEmpty then none else some p.1, p.2)

/-- Capture of group 3, `(#[\w-]*)?`: the `#` together with the following
word/hyphen run, when present. -/
def scanId (s : List Char) : Option (List Char) × List Char :=
  match s with
  | '#' :: rest => (some ('#' :: rest.takeWhile isWordHyphenChar), rest.dropWhile isWordHyphenChar)
  | _ => (none, s)

/-- Splits `s` at the last occurrence of `ch`: the part strictly before and
strictly after it. -/
def splitAtLast (ch : Char) (s : List Char) : Option (List Char × List Char) :=
  if s.contains ch then
    some (((s.reverse.dropWhile (fun c => !(c = ch))).drop 1).reverse,
          (s.reverse.takeWhile (fun c => !(c = ch))).reverse)
  else none

/-- Scanner for `(?:\((.*)\))?` and `(?:\[(.*)\])?`: if the input starts
with the opening bracket and the closing bracket occurs later, the greedy
`.*` captures everything up to the *last* closing bracket; otherwise the
optional group matches the empty string and consumes nothing. -/
def scanDelimited (lb rb : Char) (s : List Char) : Option (List Char) × List Char :=
  match s with
  | [] => (none, [])
  | c :: rest =>
    if c = lb then
      match splitAtLast rb rest with
      | some (inside, after) => (some inside, after)
      | none => (none, c :: rest)
    else (none, c :: rest)

/-- Scanner for `(?:\@([\w;-]*))*`: iterate over `@`-introduced groups; the
recorded capture is the one of the *last* iteration.  Each iteration
consumes at least the `@`, so the string length is sufficient fuel. -/
def scanEventsGo : Nat → Option (List Char) → List Char → Option (List Char)
  | 0, cap, _ => cap
  | fuel + 1, cap, s =>
    match s with
    | '@' :: rest => scanEventsGo fuel (some (rest.takeWhile isWordSemiHyphenChar)) (rest.dropWhile isWordSemiHyphenChar)
    | _ => cap

/-- The captures of the engine's regular expression `REGEX` (source line
199) on one line.  `tag` is capture 1 and is non-empty whenever a match
exists; the remaining captures may be unset. -/
structure RegexMatch where
  tag : List Char
  classesRaw : Option (List Char)
  idRaw : Option (List Char)
  contentRaw : Option (List Char)
  attributesRaw : Option (List Char)
  eventsRaw : Option (List Char)

/-- Embedding of `REGEX.exec(line)`.  The pattern
`/(\w+)((?:\.[\w-]*)*)*(#[\w-]*)?(?:\((.*)\))?(?:\[(.*)\])?(?:\@([\w;-]*))*/`
is unanchored and everything after group 1 is optional, so `exec` succeeds
exactly at the first position whose character matches `\w`, and from there
each component matches greedily with no backtracking across components
(every later component can match the empty string, so no failure ever
propagates backwards).  Hence: the tag is the first maximal `\w+` run of
the line, and the remaining groups scan from the end of that run. -/
def execRegex (line : List Char) : Option RegexMatch :=
  let s := line.dropWhile (fun c => !(isWordChar c))
  if s.isEmpty then none
  else
    let s1 := s.dropWhile isWordChar
    let c2 := scanClasses s1
    let c3 := scanId c2.2
    let c4 := scanDelimited '(' ')' c3.2
    let c5 := scanDelimited '[' ']' c4.2
    some ⟨s.takeWhile isWordChar, c2.1, c3.1, c4.1, c5.1,
          scanEventsGo (c5.2.length + 1) none c5.2⟩

/-- The JavaScript pattern `matches[i] ? e : null` for string captures: an
unset capture and an empty capture are both falsy. -/
def jsTruthyOpt : Option (List Char) → Option (List Char)
  | none => none
  | some s => if s.isEmpty then none else some s

/-- The guard `/\d/.test(x[0])`: `x[0]` of an empty string is `undefined`,
which stringifies to `"undefined"` and contains no digit, hence `false`. -/
def jsDigitTest : Option Char → Bool
  | none => false
  | some c => c.isDigit

/-- Model of `element.classList.add(c)`: the class list is a set kept in
insertion order, adding an already present token is a no-op. -/
def classListAdd (classes : List (List Char)) (c : List Char) : List (List Char) :=
  if classes.contains c then classes else classes ++ [c]

/-- Model of `element.setAttribute(name, value)`: overwrite the value if
the attribute exists, otherwise append it. -/
def setAttributeList : List (List Char × List Char) → List Char → List Char → List (List Char × List Char)
  | [], n, v => [(n, v)]
  | (a, w) :: rest, n, v =>
    if a = n then (a, v) :: rest else (a, w) :: setAttributeList rest n v

/-- Model of `element.addEventListener(type, callback, options)`: the DOM
ignores an exact duplicate registration, otherwise the listener is
appended. -/
def addListenerList (ls : List (List Char × Nat × Option Nat)) (e : List Char × Nat × Option Nat) :
    List (List Char × Nat × Option Nat) :=
  if ls.contains e then ls else ls ++ [e]

/-- Model of `_decodeHTMLEntities` (source lines 320-324), which decodes
HTML entities through a detached `textarea`.  Modelled as the identity,
which is exact for every content containing no `&` entity — in particular
for all inputs appearing in this development. -/
def decodeHTMLEntities (content : List Char) : List Char :=
  content

/-- The class loop of `_createElementFromLine` (source lines 365-373):
tokens with a leading digit are rejected (logged and skipped), the rest are
added to the class list. -/
def applyClasses (el : ElementData) (classes : List (List Char)) : ElementData :=
  classes.foldl
    (fun el c =>
      if jsDigitTest c.head? then el
      else { el with classes := classListAdd el.classes c })
    el

/-- One iteration of the attribute loop of `_createElementFromLine`
(source lines 375-389): leading-digit entries are rejected *before*
trimming; a trimmed entry containing `=` is split on `=` and the first two
segments become name and value (`attr.split("=")[0]` and
`attr.split("=")[1]`); an entry without `=` becomes an attribute with empty
value. -/
def applyAttrEntry (el : ElementData) (attr : List Char) : ElementData :=
  if jsDigitTest attr.head? then el
  else
    let a := trimChars attr
    if a.contains '=' then
      let n := (splitOnChar '=' a).headD []
      let v := (splitOnChar '=' a).getD 1 []
      { el with attributes := setAttributeList el.attributes n v }
    else
      { el with attributes := setAttributeList el.attributes a [] }

/-- The attribute loop of `_createElementFromLine` (source lines 374-390). -/
def applyAttrEntries (el : ElementData) (attrs : List (List Char)) : ElementData :=
  attrs.foldl applyAttrEntry el

/-- The event loop of `_createElementFromLine` (source lines 395-407):
leading-digit names are rejected; names resolved in the registry attach a
listener; unresolved names are silently ignored. -/
def applyEvents (events : List EventBinding) (el : ElementData) (names : List (List Char)) : ElementData :=
  names.foldl
    (fun el n =>
      if jsDigitTest n.head? then el
      else
        match searchForEvent events n with
        | some ev => { el with listeners := addListenerList el.listeners (ev.type, ev.callback, ev.options) }
        | none => el)
    el

/-- Embedding of `_createElementFromLine` (source lines 348-409).
`document.createElement` is modelled as a total constructor of
`ElementData`.  The throw `"HTMLBuilder: unable to parse a line"` is the
`.error` case. -/
def createElementFromLine (symbol : List Char) (events : List EventBinding) (line : List Char) :
    Except JsError ElementData :=
  match execRegex line with
  | none => .error (.parseLine line)
  | some m =>
    if m.tag.isEmpty then .error (.parseLine line)
    else
      let classes := (jsTruthyOpt m.classesRaw).map
        (fun s => (splitOnChar '.' s).filter (fun t => !t.isEmpty))
      let idv := (jsTruthyOpt m.idRaw).map (replaceFirstStr ['#'] [])
      let content := jsTruthyOpt m.contentRaw
      let attributes := (jsTruthyOpt m.attributesRaw).map (splitOnStr symbol)
      let eventNames := (jsTruthyOpt m.eventsRaw).map
        (fun s => (splitOnChar ';' s).filter (fun t => !t.isEmpty))
      let el0 : ElementData :=
        { tag := m.tag, classes := [], id := [], text := none, attributes := [], listeners := [] }
      let el1 := match classes with
        | some cs => applyClasses el0 cs
        | none => el0
      let el2 := match attributes with
        | some entries => applyAttrEntries el1 entries
        | none => el1
      let el3 := match idv with
        | some i => if i.isEmpty then el2 else { el2 with id := i }
        | none => el2
      let el4 := match content with
        | some c => { el3 with text := some (decodeHTMLEntities c) }
        | none => el3
      let el5 := match eventNames with
        | some ns => applyEvents events el4 ns
        | none => el4
      .ok el5

/-- Embedding of `_maxLevel` (source lines 417-426): running maximum of the
levels, starting from `children[0][1]` (the empty case never occurs in the
engine, which calls this only on non-empty lists). -/
def maxLevel {α : Type} : List (DomTree α × Nat) → Nat
  | [] => 0
  | c :: cs => (c :: cs).foldl (fun m x => if x.2 > m then x.2 else m) c.2

/-- Embedding of `_getIndexOfDeepestElement` (source lines 434-451): when
the maximum level is 1 the last index; otherwise a forward scan keeping the
last index whose level equals the maximum (`lastIndex` initialised to 1, as
in the source). -/
def getIndexOfDeepestElement {α : Type} (children : List (DomTree α × Nat)) : Nat :=
  let mx := maxLevel children
  if mx = 1 then children.length - 1
  else (children.enum).foldl (fun last p => if p.2.2 = mx then p.1 else last) 1

/-- Embedding of `_getIndexOfNearestParentElementOf` (source lines
460-470): a forward scan over the indices strictly before `indexOfDeepest`
keeping the last index whose level equals `deepest - 1` (JavaScript number
arithmetic; modelled in `Int` so that `deepest - 1` is `-1`, never matched,
when `deepest = 0`). -/
def getIndexOfNearestParentElementOf {α : Type} (indexOfDeepest : Nat)
    (children : List (DomTree α × Nat)) : Option Nat :=
  let deepest : Int := match children.get? indexOfDeepest with
    | some p => (p.2 : Int)
    | none => 0
  ((children.take indexOfDeepest).enum).foldl
    (fun last p => if (p.2.2 : Int) = deepest - 1 then some p.1 else last) none

/-- One iteration of the `while (childrenElements.length > 0)` loop of
`generate` (source lines 514-522): locate the deepest element, prepend it
to its nearest parent (or to the main element when there is none), and
remove it from the pending list.  The `get?` fallbacks are unreachable:
both indices are always in range. -/
def reconstructStep {α : Type} :
    DomTree α × List (DomTree α × Nat) → DomTree α × List (DomTree α × Nat)
  | (mainElement, []) => (mainElement, [])
  | (mainElement, x :: xs) =>
    let children := x :: xs
    let d := getIndexOfDeepestElement children
    match getIndexOfNearestParentElementOf d children, children.get? d with
    | some p, some cd =>
      (match children.get? p with
       | some cp => (mainElement, (children.set p (prependChild cp.1 cd.1, cp.2)).eraseIdx d)
       | none => (mainElement, children.eraseIdx d))
    | none, some cd => (prependChild mainElement cd.1, children.eraseIdx d)
    | _, none => (mainElement, children.eraseIdx d)

/-- The whole reconstruction loop: since every iteration on a non-empty
list removes exactly one pending element, `children.length` iterations
drain the list (iterating a step on an empty list is the identity). -/
def buildTree {α : Type} (mainElement : DomTree α) (children : List (DomTree α × Nat)) : DomTree α :=
  (Nat.iterate reconstructStep children.length (mainElement, children)).1

/-- The first loop of `generate` (source lines 486-492): collect the lines
with level 0 together with their index among all lines. -/
def mainLinesAux : Nat → List (List Char) → List (List Char × Nat)
  | _, [] => []
  | i, l :: ls =>
    if jsLevel l = 0 then (l, i) :: mainLinesAux (i + 1) ls
    else mainLinesAux (i + 1) ls

/-- The main lines of a line list, each paired with its index. -/
def mainLinesOf (lines : List (List Char)) : List (List Char × Nat) :=
  mainLinesAux 0 lines

/-- `mainLines[i + 1] ? mainLines[i + 1][1] : lines.length` of the source:
the index bounding the current descendant block. -/
def nextMainIdx (lines : List (List Char)) : List (List Char × Nat) → Nat
  | [] => lines.length
  | m :: _ => m.2

/-- The inner `for (k = ...)` loop of `generate` (source lines 504-508):
instantiate every line of the descendant block, paired with its level.
Each element records its line index `k` as ghost data. -/
def buildChildrenLoop (symbol : List Char) (events : List EventBinding) (lines : List (List Char)) :
    List Nat → Except JsError (List (DomTree (ElementData × Nat) × Nat))
  | [] => .ok []
  | k :: ks =>
    let line := lines.getD k []
    match createElementFromLine symbol events line with
    | .error e => .error e
    | .ok el =>
      match buildChildrenLoop symbol events lines ks with
      | .error e => .error e
      | .ok rest => .ok ((DomTree.node (el, k) [], jsLevel line) :: rest)

/-- The outer `for (i = 0; i < mainLines.length; ...)` loop of `generate`
(source lines 495-524).  Returns the trees appended to the parent, in
order, and `some` error when a throw aborted the loop (the trees appended
before the throw are kept, as in the DOM). -/
def generateLoop (symbol : List Char) (events : List EventBinding) (lines : List (List Char)) :
    List (List Char × Nat) → List (DomTree (ElementData × Nat)) × Option JsError
  | [] => ([], none)
  | (mainLine, mi) :: rest =>
    let nextIdx := nextMainIdx lines rest
    match createElementFromLine symbol events mainLine with
    | .error e => ([], some e)
    | .ok mainData =>
      match buildChildrenLoop symbol events lines (List.range' (mi + 1) (nextIdx - (mi + 1))) with
      | .error e => ([], some e)
      | .ok childrenElements =>
        let tree := buildTree (DomTree.node (mainData, mi) []) childrenElements
        let p := generateLoop symbol events lines rest
        (tree :: p.1, p.2)

/-- Embedding of `generate` (source lines 477-525).  The builder state is
returned unchanged: the body of `generate` reads `SYMBOL_BETWEEN_ATTRIBUTES`
and `EVENTS` but assigns neither (in particular it never calls
`clearEvents`).  The first component collects the trees appended to the
parent element. -/
def generate (b : Builder) (template : List Char) :
    (List (DomTree (ElementData × Nat)) × Option JsError) × Builder :=
  if (trimChars template).isEmpty then (([], none), b)
  else
    let lines := extractLinesFrom template
    (generateLoop b.SYMBOL_BETWEEN_ATTRIBUTES b.EVENTS lines (mainLinesOf lines), b)

/-- A builder in its freshly constructed state: delimiter `";"`, empty
registry. -/
def freshBuilder : Builder :=
  { SYMBOL_BETWEEN_ATTRIBUTES := [';'], EVENTS := [] }

/-- The ghost line index carried at the root of an element tree. -/
def rootIdx {γ : Type} : DomTree (γ × Nat) → Nat
  | .node (_, i) _ => i

/-- Document order of a generated tree: at every node, the children occur
with strictly increasing source-line indices, i.e. left-to-right in the
same order as their lines appear in the template. -/
inductive DocOrdered {γ : Type} : DomTree (γ × Nat) → Prop
  | node (a : γ × Nat) (cs : List (DomTree (γ × Nat)))
      (hinc : List.Pairwise (fun s t => rootIdx s < rootIdx t) cs)
      (hrec : ∀ c ∈ cs, DocOrdered c) : DocOrdered (DomTree.node a cs)

/-- Worker for `wfLevels`: `seen` accumulates the levels of the lines
already passed (nearest first). -/
def wfLevelsAux : List Nat → List Nat → Bool
  | _, [] => true
  | seen, l :: rest => (decide (l < 2) || seen.contains (l - 1)) && wfLevelsAux (l :: seen) rest

/-- Well-formed level sequence of a descendant block: every line at level
at least 2 is preceded in the block by a line exactly one level
shallower. -/
def wfLevels (ls : List Nat) : Bool :=
  wfLevelsAux [] ls

/-- Well-formedness of the descendant blocks of the remaining main lines. -/
def wfMains (lines : List (List Char)) : List (List Char × Nat) → Bool
  | [] => true
  | (_, mi) :: rest =>
    wfLevels ((List.range' (mi + 1) (nextMainIdx lines rest - (mi + 1))).map
      (fun k => jsLevel (lines.getD k []))) && wfMains lines rest

/-- Well-formed template: in every descendant block, every line at level
at least 2 has an earlier line of the block at exactly one level less.
Orphan lines (which the engine reattaches to the main element) are
excluded. -/
def wfTemplate (template : List Char) : Bool :=
  wfMains (extractLinesFrom template) (mainLinesOf (extractLinesFrom template))

/-- Newline-join of a list of lines (proof-side helper: the canonical form
of an `indentTemplate` result). -/
def joinNl : List (List Char) → List Char
  | [] => []
  | [m] => m
  | m :: m2 :: rest => m ++ '\n' :: joinNl (m2 :: rest)

/-- The children of a tree node. -/
def treeChildren {α : Type} : DomTree α → List (DomTree α)
  | .node _ cs => cs

/-- Propositional form of `wfLevels`: in every decomposition of the level
list, a level of at least 2 is preceded by a level exactly one less. -/
def WfL (ls : List Nat) : Prop :=
  ∀ (pre : List Nat) (l : Nat) (post : List Nat), ls = pre ++ l :: post → 2 ≤ l → (l - 1) ∈ pre

/-- Between a main line and the next main line there is no level-0 line:
the defining property of the `mainLines` scan of `generate`. -/
def GapsOK (lines : List (List Char)) : List (List Char × Nat) → Prop
  | [] => True
  | (_, i) :: rest =>
    (∀ k, i < k → k < nextMainIdx lines rest → jsLevel (lines.getD k []) ≠ 0) ∧ GapsOK lines rest

/-- Invariant of the reconstruction loop that yields document order.
For the main element `main` and the pending list `cs` it demands: the
pending roots occur with strictly increasing line indices; all pending
levels are at least 1; the pending level list is well formed (`WfL`); all
pending trees and the main tree are document ordered; every child already
attached to `main` has a larger line index than every pending root; and
every child already attached to a pending element has a larger line index
than every pending root of strictly deeper level. -/
def ReconInv {γ : Type} (main : DomTree (γ × Nat)) (cs : List (DomTree (γ × Nat) × Nat)) : Prop :=
  List.Pairwise (fun a b => a < b) (cs.map (fun p => rootIdx p.1))
  ∧ (∀ p ∈ cs, 1 ≤ p.2)
  ∧ WfL (cs.map Prod.snd)
  ∧ (∀ p ∈ cs, DocOrdered p.1)
  ∧ DocOrdered main
  ∧ (∀ c ∈ treeChildren main, ∀ p ∈ cs, rootIdx p.1 < rootIdx c)
  ∧ (∀ p ∈ cs, ∀ c ∈ treeChildren p.1, ∀ q ∈ cs, p.2 < q.2 → rootIdx q.1 < rootIdx c)

theorem splitOnChar_not_mem {c : Char} : ∀ {l : List Char}, c ∉ l → splitOnChar c l = [l]
  | [], _ => rfl
  | x :: rest, h => by
    have hx : ¬ x = c := fun e => h (e ▸ List.mem_cons_self x rest)
    have hr : c ∉ rest := fun e => h (List.mem_cons_of_mem x e)
    simp only [splitOnChar, if_neg hx, splitOnChar_not_mem hr]

theorem splitOnChar_append_sep {c : Char} : ∀ {nm rest : List Char}, c ∉ nm →
    splitOnChar c (nm ++ c :: rest) = nm :: splitOnChar c rest
  | [], rest, _ => by
    simp [splitOnChar]
  | x :: nm, rest, h => by
    have hx : ¬ x = c := fun e => h (e ▸ List.mem_cons_self x nm)
    have hr : c ∉ nm := fun e => h (List.mem_cons_of_mem x e)
    have ih : splitOnChar c (nm ++ c :: rest) = nm :: splitOnChar c rest :=
      splitOnChar_append_sep hr
    show splitOnChar c (x :: (nm ++ c :: rest)) = (x :: nm) :: splitOnChar c rest
    rw [splitOnChar, if_neg hx, ih]

theorem splitOnChar_ne_nil {c : Char} : ∀ (l : List Char), splitOnChar c l ≠ []
  | [] => by simp [splitOnChar]
  | x :: rest => by
    simp only [splitOnChar]
    split
    · simp
    · split <;> simp

theorem contains_of_mem {c : Char} {l : List Char} (h : c ∈ l) : l.contains c = true := by
  simpa using h

theorem splitOnChar_head_takeWhile (c : Char) :
    ∀ s : List Char, (splitOnChar c s).headD [] = s.takeWhile (fun x => !(x = c)) := by
  intro s
  induction s with
  | nil => rfl
  | cons x xs ih =>
    by_cases hx : x = c
    · subst hx
      simp [splitOnChar, List.takeWhile_cons]
    · simp only [splitOnChar, if_neg hx]
      rcases hsp : splitOnChar c xs with _ | ⟨h, t⟩
      · exact absurd hsp (splitOnChar_ne_nil xs)
      · rw [hsp] at ih
        simp only [List.headD_cons] at ih
        simp [List.takeWhile_cons, hx, ih]

/-- Claim C2: rendering `"ul\n>li(A)\n>>li(B)\n>li(C)"` into an empty parent
produces exactly one `ul` element whose children are, in order, an `li`
with text `"A"` and an `li` with text `"C"`, and the `li` with text `"A"`
has exactly one child, an `li` with text `"B"`. -/
theorem claim2_nested_template :
    (generate freshBuilder ("ul\n>li(A)\n>>li(B)\n>li(C)".data)).1 =
      ([DomTree.node
          ({ tag := "ul".data, classes := [], id := [], text := none,
             attributes := [], listeners := [] }, 0)
          [DomTree.node
            ({ tag := "li".data, classes := [], id := [], text := some ("A".data),
               attributes := [], listeners := [] }, 1)
            [DomTree.node
              ({ tag := "li".data, classes := [], id := [], text := some ("B".data),
                 attributes := [], listeners := [] }, 2) []],
           DomTree.node
            ({ tag := "li".data, classes := [], id := [], text := some ("C".data),
               attributes := [], listeners := [] }, 3) []]],
       none) := rfl

/-- Claim C3, counterexample: after binding an event and calling `generate`
on the template `"div"`, the call returns normally yet the registry is not
empty — the binding is still findable, because `generate` never clears the
registry (the `ContextMenu` collaborator has to call `clearEvents`
itself). -/
theorem claim3_counterexample :
    ((generate (bindEvent freshBuilder
        ⟨some ("onclick".data), some ("click".data), some 7, none⟩).2 ("div".data)).1.2 = none)
    ∧ ((generate (bindEvent freshBuilder
        ⟨some ("onclick".data), some ("click".data), some 7, none⟩).2 ("div".data)).2.EVENTS ≠ [])
    ∧ (searchForEvent
        ((generate (bindEvent freshBuilder
          ⟨some ("onclick".data), some ("click".data), some 7, none⟩).2 ("div".data)).2.EVENTS)
        ("click".data)
        = some ⟨"click".data, "click".data, 7, none⟩) :=
  ⟨rfl, by decide, rfl⟩

/-- Claim C3, amended: `generate` leaves the whole builder state — in
particular the event registry — unchanged; the registry becomes empty (and
lookups fail) only through the separate `clearEvents` call that the caller
must perform. -/
theorem claim3_registry_after_generate :
    ∀ (b : Builder) (template : List Char),
      (generate b template).2 = b
      ∧ (clearEvents b).EVENTS = []
      ∧ (∀ name, searchForEvent (clearEvents b).EVENTS name = none) := by
  intro b template
  refine ⟨?_, rfl, fun _ => rfl⟩
  unfold generate
  split <;> rfl

/-- Claim C4 (code bug): blank lines are meant to be discarded, but the
splice inside the forward loop of `_extractLinesFrom` skips the element
that shifts into the removed slot, so of two consecutive blank lines the
second survives as an empty line.  That empty line is treated as a main
line and aborts `generate` with a parse error: `"div\n\n\nspan"` renders
one element and then throws, while `"div\nspan"` renders both. -/
theorem claim4_blank_lines :
    extractLinesFrom ("div\n\n\nspan".data) = ["div".data, [], "span".data]
    ∧ (generate freshBuilder ("div\n\n\nspan".data)).1.2 = some (.parseLine [])
    ∧ (generate freshBuilder ("div\n\n\nspan".data)).1.1.length = 1
    ∧ (generate freshBuilder ("div\nspan".data)).1.2 = none
    ∧ (generate freshBuilder ("div\nspan".data)).1.1.length = 2 :=
  ⟨rfl, rfl, rfl, rfl, rfl⟩

/-- Claim C5, counterexample: the attribute entry `a=b=c` stores the value
`"b"` (the segment between the first and the second `=`), not `"b=c"` as
the claim states: `attr.split("=")[1]` is only the second segment. -/
theorem claim5_counterexample :
    createElementFromLine [';'] [] ("div[a=b=c]".data)
      = .ok { tag := "div".data, classes := [], id := [], text := none,
              attributes := [("a".data, "b".data)], listeners := [] }
    ∧ ("b".data : List Char) ≠ "b=c".data :=
  ⟨rfl, by decide⟩

/-- Claim C5, amended: a `name=value` attribute entry is split on `=` and
the stored value is the segment *between the first and the second* `=` (to
the end when there is no second `=`), so `a=b=c` stores value `b`; bare
entries without `=` become attributes with an empty value. -/
theorem claim5_attr_split :
    (∀ (el : ElementData) (entry nm rest : List Char),
        jsDigitTest entry.head? = false →
        trimChars entry = nm ++ '=' :: rest →
        '=' ∉ nm →
        applyAttrEntry el entry
          = { el with attributes :=
              setAttributeList el.attributes nm (rest.takeWhile (fun x => !(x = '='))) })
    ∧ (∀ (el : ElementData) (entry : List Char),
        jsDigitTest entry.head? = false →
        '=' ∉ trimChars entry →
        applyAttrEntry el entry
          = { el with attributes := setAttributeList el.attributes (trimChars entry) [] }) := by
  constructor
  · intro el entry nm rest hdigit htrim hnm
    have hmem : '=' ∈ trimChars entry := by
      rw [htrim]; exact List.mem_append_right _ (List.mem_cons_self _ _)
    have hsplit : splitOnChar '=' (trimChars entry) = nm :: splitOnChar '=' rest := by
      rw [htrim]; exact splitOnChar_append_sep hnm
    have hhead : (splitOnChar '=' (trimChars entry)).headD [] = nm := by
      rw [hsplit]; rfl
    have htail : (splitOnChar '=' (trimChars entry)).getD 1 []
        = rest.takeWhile (fun x => !(x = '=')) := by
      rw [hsplit]
      have hne := splitOnChar_ne_nil (c := '=') rest
      rcases hsp : splitOnChar '=' rest with _ | ⟨h, t⟩
      · exact absurd hsp hne
      · have := splitOnChar_head_takeWhile '=' rest
        rw [hsp] at this
        simp only [List.headD_cons] at this
        simpa using this
    unfold applyAttrEntry
    rw [if_neg (by simp [hdigit]), if_pos (contains_of_mem hmem), hhead, htail]
  · intro el entry hdigit hmem
    unfold applyAttrEntry
    rw [if_neg (by simp [hdigit]), if_neg (by simpa using hmem)]

/-- Claim C5, witness instance: `a=b=c` through the general statement. -/
theorem claim5_witness :
    jsDigitTest ("a=b=c".data).head? = false
    ∧ trimChars ("a=b=c".data) = "a".data ++ '=' :: "b=c".data
    ∧ '=' ∉ ("a".data : List Char)
    ∧ applyAttrEntry
        { tag := "div".data, classes := [], id := [], text := none,
          attributes := [], listeners := [] } ("a=b=c".data)
      = { tag := "div".data, classes := [], id := [], text := none,
          attributes := [("a".data, ("b=c".data).takeWhile (fun x => !(x = '=')))],
          listeners := [] } :=
  ⟨rfl, rfl, by decide,
    claim5_attr_split.1
      { tag := "div".data, classes := [], id := [], text := none,
        attributes := [], listeners := [] }
      ("a=b=c".data) ("a".data) ("b=c".data) rfl rfl (by decide)⟩

/-- Claim C7: a binding argument missing its name, its type, or its
callback makes `bindEvent` throw a validation error, and the registry (the
whole builder state) is left unchanged. -/
theorem claim7_bindEvent_validation :
    ∀ (b : Builder) (e : BindArg),
      e.name = none ∨ e.type = none ∨ e.callback = none →
      (bindEvent b e).1.isSome = true ∧ (bindEvent b e).2 = b := by
  intro b e h
  unfold bindEvent
  rcases h with h | h | h <;>
    · split
      · exact ⟨rfl, rfl⟩
      · split
        · exact ⟨rfl, rfl⟩
        · split
          · exact ⟨rfl, rfl⟩
          · simp_all [jsFalsyStr, Option.isNone]

/-- Claim C7, witness instance: `bindEvent` with no callback throws and
does not mutate the registry. -/
theorem claim7_witness :
    ((some ("x".data) : Option (List Char)) = none ∨
      (some ("click".data) : Option (List Char)) = none ∨ (none : Option Nat) = none)
    ∧ (bindEvent freshBuilder ⟨some ("x".data), some ("click".data), none, none⟩).1.isSome = true
    ∧ (bindEvent freshBuilder ⟨some ("x".data), some ("click".data), none, none⟩).2 = freshBuilder :=
  ⟨Or.inr (Or.inr rfl),
   (claim7_bindEvent_validation freshBuilder
      ⟨some ("x".data), some ("click".data), none, none⟩ (Or.inr (Or.inr rfl))).1,
   (claim7_bindEvent_validation freshBuilder
      ⟨some ("x".data), some ("click".data), none, none⟩ (Or.inr (Or.inr rfl))).2⟩

theorem bindEvent_strips_on {b : Builder} {n t : List Char} {cb : Nat} {opts : Option Nat}
    (hpre : (['o', 'n']).isPrefixOf n = true) (ht : t ≠ []) :
    bindEvent b ⟨some n, some t, some cb, opts⟩
      = (none, { b with EVENTS := b.EVENTS ++ [⟨n.drop 2, t, cb, opts⟩] }) := by
  rcases (List.isPrefixOf_iff_prefix.mp hpre) with ⟨rest, hrest⟩
  subst hrest
  cases t with
  | nil => exact absurd rfl ht
  | cons tc ttl =>
    show bindEvent b ⟨some ('o' :: 'n' :: rest), some (tc :: ttl), some cb, opts⟩
        = (none, { b with EVENTS := b.EVENTS ++ [⟨rest, tc :: ttl, cb, opts⟩] })
    unfold bindEvent
    norm_num [jsFalsyStr, replaceFirstStr, firstOccSplit, List.isPrefixOf]

theorem searchForEvent_first {pre post : List EventBinding} {ev : EventBinding} {key : List Char}
    (hev : ev.name = key) (hpre : ∀ x ∈ pre, x.name ≠ key) :
    searchForEvent (pre ++ ev :: post) key = some ev := by
  unfold searchForEvent
  induction pre with
  | nil =>
    simp only [List.nil_append, List.find?]
    rw [show (key == ev.name) = true from by simp [hev]]
  | cons x xs ih =>
    have hx : (key == x.name) = false := by
      simp only [beq_eq_false_iff_ne, ne_eq]
      exact fun e => hpre x (List.mem_cons_self x xs) (by rw [e])
    simp only [List.cons_append, List.find?, hx]
    exact ih (fun y hy => hpre y (List.mem_cons_of_mem x hy))

/-- Claim C8: `bindEvent` strips a leading `"on"` from the binding name
before storing (so a binding registered under `"onsubmit"` is stored under
`"submit"`), lookup scans the registry front to back returning the first
entry whose stored name equals the key, and hence, in a registry with no
earlier `"submit"` entry, the freshly bound `"onsubmit"` binding is
returned by a lookup for `"submit"`. -/
theorem claim8_on_strip :
    (∀ (b : Builder) (n t : List Char) (cb : Nat) (opts : Option Nat),
        (['o', 'n']).isPrefixOf n = true → t ≠ [] →
        bindEvent b ⟨some n, some t, some cb, opts⟩
          = (none, { b with EVENTS := b.EVENTS ++ [⟨n.drop 2, t, cb, opts⟩] }))
    ∧ (∀ (pre post : List EventBinding) (ev : EventBinding) (key : List Char),
        ev.name = key → (∀ x ∈ pre, x.name ≠ key) →
        searchForEvent (pre ++ ev :: post) key = some ev)
    ∧ (∀ (b : Builder) (t : List Char) (cb : Nat) (opts : Option Nat),
        t ≠ [] → (∀ x ∈ b.EVENTS, x.name ≠ "submit".data) →
        searchForEvent (bindEvent b ⟨some ("onsubmit".data), some t, some cb, opts⟩).2.EVENTS
            ("submit".data)
          = some ⟨"submit".data, t, cb, opts⟩) := by
  refine ⟨fun b n t cb opts hp ht => bindEvent_strips_on hp ht,
          fun pre post ev key hev hpre => searchForEvent_first hev hpre,
          fun b t cb opts ht hnone => ?_⟩
  rw [bindEvent_strips_on (by decide) ht]
  exact searchForEvent_first rfl hnone

/-- Claim C8, witness instance: binding `"onsubmit"` into a fresh builder
and looking up `"submit"`. -/
theorem claim8_witness :
    searchForEvent
        (bindEvent freshBuilder ⟨some ("onsubmit".data), some ("click".data), some 5, none⟩).2.EVENTS
        ("submit".data)
      = some ⟨"submit".data, "click".data, 5, none⟩ :=
  claim8_on_strip.2.2 freshBuilder ("click".data) 5 none (by decide)
    (fun x hx => absurd hx (List.not_mem_nil x))

theorem dropWhile_head_false {p : Char → Bool} :
    ∀ {l : List Char} {c : Char} {t : List Char}, List.dropWhile p l = c :: t → p c = false := by
  intro l
  induction l with
  | nil => intro c t h; cases h
  | cons x xs ih =>
    intro c t h
    by_cases hx : p x
    · rw [List.dropWhile_cons_of_pos hx] at h
      exact ih h
    · rw [List.dropWhile_cons_of_neg hx] at h
      cases h
      simpa using hx

theorem execRegex_some_tag {line : List Char} {m : RegexMatch} (h : execRegex line = some m) :
    m.tag ≠ [] := by
  unfold execRegex at h
  rcases hs : line.dropWhile (fun c => !(isWordChar c)) with _ | ⟨c, t⟩
  · rw [hs] at h
    simp at h
  · rw [hs] at h
    have hc : isWordChar c = true := by simpa using (dropWhile_head_false hs)
    simp only [List.isEmpty_cons, Bool.false_eq_true, if_false] at h
    have htag : m.tag = (c :: t).takeWhile isWordChar := by
      cases h
      rfl
    rw [htag, List.takeWhile_cons_of_pos hc]
    simp

/-- Claim C10: `_createElementFromLine` raises its parse error exactly when
the line contains no word character; in particular `".foo"` parses with tag
`"foo"` (the first word run anywhere in the line) and a line still carrying
its depth markers, `">div"`, parses with tag `"div"`. -/
theorem claim10_parse_error_iff :
    (∀ (symbol : List Char) (events : List EventBinding) (line : List Char),
        (∃ e, createElementFromLine symbol events line = Except.error e)
          ↔ (∀ c ∈ line, isWordChar c = false))
    ∧ (createElementFromLine [';'] [] (".foo".data)).toOption.map ElementData.tag
        = some ("foo".data)
    ∧ (createElementFromLine [';'] [] (">div".data)).toOption.map ElementData.tag
        = some ("div".data) := by
  refine ⟨fun symbol events line => ⟨?_, ?_⟩, rfl, rfl⟩
  · intro ⟨e, he⟩
    rcases hm : execRegex line with _ | m
    · unfold execRegex at hm
      by_cases hs : (line.dropWhile (fun c => !(isWordChar c))).isEmpty = true
      · intro c hc
        rw [List.isEmpty_iff] at hs
        have := List.dropWhile_eq_nil_iff.mp hs c hc
        simpa using this
      · rw [if_neg hs] at hm
        cases hm
    · exfalso
      have htag := execRegex_some_tag hm
      have htag' : m.tag.isEmpty = false := by
        rcases hmt : m.tag with _ | _
        · exact absurd hmt htag
        · rfl
      unfold createElementFromLine at he
      rw [hm] at he
      simp only [htag', Bool.false_eq_true, if_false] at he
      exact Except.noConfusion he
  · intro hall
    refine ⟨.parseLine line, ?_⟩
    have hnil : line.dropWhile (fun c => !(isWordChar c)) = [] :=
      List.dropWhile_eq_nil_iff.mpr (fun c hc => by rw [hall c hc]; rfl)
    unfold createElementFromLine execRegex
    rw [hnil]
    rfl

/-- Claim C10, witness instance: the equivalence applied to the concrete
line `"!!!"`, which contains no word character and therefore fails to
parse. -/
theorem claim10_witness :
    ∃ e, createElementFromLine [';'] [] ("!!!".data) = Except.error e :=
  (claim10_parse_error_iff.1 [';'] [] ("!!!".data)).mpr (by decide)

theorem foldlMax_ge_init {α : Type} :
    ∀ (l : List (DomTree α × Nat)) (init : Nat),
      init ≤ l.foldl (fun m x => if x.2 > m then x.2 else m) init := by
  intro l
  induction l with
  | nil => intro init; exact le_refl _
  | cons c cs ih =>
    intro init
    refine le_trans ?_ (ih (if c.2 > init then c.2 else init))
    split
    · omega
    · exact le_refl _

theorem foldlMax_ge_mem {α : Type} :
    ∀ (l : List (DomTree α × Nat)) (init : Nat) (p : DomTree α × Nat), p ∈ l →
      p.2 ≤ l.foldl (fun m x => if x.2 > m then x.2 else m) init := by
  intro l
  induction l with
  | nil => intro init p hp; cases hp
  | cons c cs ih =>
    intro init p hp
    rcases List.mem_cons.mp hp with h | h
    · subst h
      refine le_trans ?_ (foldlMax_ge_init cs (if p.2 > init then p.2 else init))
      split <;> omega
    · exact ih _ p h

theorem foldlMax_cases {α : Type} :
    ∀ (l : List (DomTree α × Nat)) (init : Nat),
      l.foldl (fun m x => if x.2 > m then x.2 else m) init = init
      ∨ ∃ p ∈ l, l.foldl (fun m x => if x.2 > m then x.2 else m) init = p.2 := by
  intro l
  induction l with
  | nil => intro init; exact Or.inl rfl
  | cons c cs ih =>
    intro init
    rcases ih (if c.2 > init then c.2 else init) with h | ⟨p, hp, he⟩
    · by_cases hc : c.2 > init
      · right
        exact ⟨c, List.mem_cons_self c cs, by rw [List.foldl_cons, h, if_pos hc]⟩
      · left
        rw [List.foldl_cons, h, if_neg hc]
    · right
      exact ⟨p, List.mem_cons_of_mem c hp, by rw [List.foldl_cons]; exact he⟩

theorem maxLevel_ge {α : Type} {cs : List (DomTree α × Nat)} {p : DomTree α × Nat} (hp : p ∈ cs) :
    p.2 ≤ maxLevel cs := by
  cases cs with
  | nil => cases hp
  | cons c t => exact foldlMax_ge_mem (c :: t) c.2 p hp

theorem maxLevel_attained {α : Type} {cs : List (DomTree α × Nat)} (h : cs ≠ []) :
    ∃ p ∈ cs, p.2 = maxLevel cs := by
  cases cs with
  | nil => exact absurd rfl h
  | cons c t =>
    rcases foldlMax_cases (c :: t) c.2 with he | ⟨p, hp, he⟩
    · exact ⟨c, List.mem_cons_self c t, by rw [maxLevel, he]⟩
    · exact ⟨p, hp, by rw [maxLevel, he]⟩

theorem exists_last_decomp {β : Type} (Q : β → Prop) :
    ∀ (l : List β), (∃ x ∈ l, Q x) →
      ∃ A c B, l = A ++ c :: B ∧ Q c ∧ ∀ b ∈ B, ¬ Q b := by
  intro l
  induction l with
  | nil => rintro ⟨x, hx, _⟩; cases hx
  | cons y ys ih =>
    intro hex
    by_cases hys : ∃ x ∈ ys, Q x
    · rcases ih hys with ⟨A, c, B, h1, h2, h3⟩
      exact ⟨y :: A, c, B, by rw [h1]; rfl, h2, h3⟩
    · rcases hex with ⟨x, hx, hqx⟩
      rcases List.mem_cons.mp hx with h | h
      · subst h
        exact ⟨[], x, ys, rfl, hqx, fun b hb hq => hys ⟨b, hb, hq⟩⟩
      · exact absurd ⟨x, h, hqx⟩ hys

theorem lastIdxFold_no {α : Type} (mx : Nat) :
    ∀ (l : List (DomTree α × Nat)) (s init : Nat),
      (∀ x ∈ l, x.2 ≠ mx) →
      (List.enumFrom s l).foldl (fun last p => if p.2.2 = mx then p.1 else last) init = init := by
  intro l
  induction l with
  | nil => intro s init _; rfl
  | cons c cs ih =>
    intro s init hall
    show (List.enumFrom (s + 1) cs).foldl _ (if c.2 = mx then s else init) = init
    rw [if_neg (hall c (List.mem_cons_self c cs))]
    exact ih (s + 1) init (fun x hx => hall x (List.mem_cons_of_mem c hx))

theorem lastIdxFold_last {α : Type} (mx : Nat) :
    ∀ (A : List (DomTree α × Nat)) (c : DomTree α × Nat) (B : List (DomTree α × Nat)) (s init : Nat),
      c.2 = mx → (∀ b ∈ B, b.2 ≠ mx) →
      (List.enumFrom s (A ++ c :: B)).foldl (fun last p => if p.2.2 = mx then p.1 else last) init
        = s + A.length := by
  intro A
  induction A with
  | nil =>
    intro c B s init hc hB
    show (List.enumFrom (s + 1) B).foldl _ (if c.2 = mx then s else init) = s + 0
    rw [if_pos hc, lastIdxFold_no mx B (s + 1) s hB]
    omega
  | cons a A ih =>
    intro c B s init hc hB
    show (List.enumFrom (s + 1) (A ++ c :: B)).foldl _ (if a.2 = mx then s else init)
        = s + (A.length + 1)
    rw [ih c B (s + 1) _ hc hB]
    omega

theorem lastParFold_no {α : Type} (dl : Int) :
    ∀ (l : List (DomTree α × Nat)) (s : Nat) (init : Option Nat),
      (∀ x ∈ l, (x.2 : Int) ≠ dl - 1) →
      (List.enumFrom s l).foldl
        (fun last p => if (p.2.2 : Int) = dl - 1 then some p.1 else last) init = init := by
  intro l
  induction l with
  | nil => intro s init _; rfl
  | cons c cs ih =>
    intro s init hall
    show (List.enumFrom (s + 1) cs).foldl _ (if (c.2 : Int) = dl - 1 then some s else init) = init
    rw [if_neg (hall c (List.mem_cons_self c cs))]
    exact ih (s + 1) init (fun x hx => hall x (List.mem_cons_of_mem c hx))

theorem lastParFold_last {α : Type} (dl : Int) :
    ∀ (A : List (DomTree α × Nat)) (c : DomTree α × Nat) (B : List (DomTree α × Nat))
      (s : Nat) (init : Option Nat),
      (c.2 : Int) = dl - 1 → (∀ b ∈ B, (b.2 : Int) ≠ dl - 1) →
      (List.enumFrom s (A ++ c :: B)).foldl
        (fun last p => if (p.2.2 : Int) = dl - 1 then some p.1 else last) init
        = some (s + A.length) := by
  intro A
  induction A with
  | nil =>
    intro c B s init hc hB
    show (List.enumFrom (s + 1) B).foldl _ (if (c.2 : Int) = dl - 1 then some s else init)
        = some (s + 0)
    rw [if_pos hc, lastParFold_no dl B (s + 1) (some s) hB]
    rfl
  | cons a A ih =>
    intro c B s init hc hB
    show (List.enumFrom (s + 1) (A ++ c :: B)).foldl _ (if (a.2 : Int) = dl - 1 then some s else init)
        = some (s + (A.length + 1))
    rw [ih c B (s + 1) _ hc hB]
    congr 1
    omega

theorem get?_append_cons {β : Type} : ∀ (A : List β) (c : β) (B : List β),
    (A ++ c :: B).get? A.length = some c
  | [], _, _ => rfl
  | _ :: A, c, B => get?_append_cons A c B

theorem eraseIdx_append_cons {β : Type} : ∀ (A : List β) (c : β) (B : List β),
    (A ++ c :: B).eraseIdx A.length = A ++ B
  | [], _, _ => rfl
  | a :: A, c, B => by
    show a :: (A ++ c :: B).eraseIdx A.length = a :: (A ++ B)
    rw [eraseIdx_append_cons A c B]

theorem set_append_cons {β : Type} : ∀ (A : List β) (c v : β) (B : List β),
    (A ++ c :: B).set A.length v = A ++ v :: B
  | [], _, _, _ => rfl
  | a :: A, c, v, B => by
    show a :: (A ++ c :: B).set A.length v = a :: (A ++ v :: B)
    rw [set_append_cons A c v B]

theorem deepest_lt {α : Type} (cs : List (DomTree α × Nat)) (h : cs ≠ []) :
    getIndexOfDeepestElement cs < cs.length := by
  unfold getIndexOfDeepestElement
  by_cases hmx : maxLevel cs = 1
  · rw [if_pos hmx]
    cases cs with
    | nil => exact absurd rfl h
    | cons c t => simp
  · rw [if_neg hmx]
    rcases maxLevel_attained h with ⟨p, hp, hpl⟩
    rcases exists_last_decomp (fun x => x.2 = maxLevel cs) cs ⟨p, hp, hpl⟩ with
      ⟨A, c, B, hdec, hc, hB⟩
    have hfold : (cs.enum).foldl (fun last p => if p.2.2 = maxLevel cs then p.1 else last) 1
        = A.length := by
      conv_lhs => rw [show cs.enum = List.enumFrom 0 (A ++ c :: B) from by rw [← hdec]; rfl]
      have hl := lastIdxFold_last (maxLevel cs) A c B 0 1 hc (fun b hb => hB b hb)
      simpa using hl
    rw [hfold, hdec]
    simp only [List.length_append, List.length_cons]
    omega

theorem length_eraseIdx_lt {β : Type} : ∀ (l : List β) (i : Nat), i < l.length →
    (l.eraseIdx i).length + 1 = l.length
  | a :: l, 0, _ => by simp
  | a :: l, i + 1, h => by
    show (l.eraseIdx i).length + 1 + 1 = l.length + 1
    rw [length_eraseIdx_lt l i (by simpa using Nat.lt_of_succ_lt_succ h)]

theorem reconstructStep_length {α : Type} (main : DomTree α) (x : DomTree α × Nat)
    (xs : List (DomTree α × Nat)) :
    (reconstructStep (main, x :: xs)).2.length = xs.length := by
  have hd := deepest_lt (x :: xs) (by simp)
  have herase : ∀ l : List (DomTree α × Nat), l.length = (x :: xs).length →
      (l.eraseIdx (getIndexOfDeepestElement (x :: xs))).length = xs.length := by
    intro l hl
    have := length_eraseIdx_lt l (getIndexOfDeepestElement (x :: xs)) (by rw [hl]; exact hd)
    simp only [List.length_cons] at hl
    omega
  simp only [reconstructStep]
  split
  · split
    · exact herase _ (by rw [List.length_set])
    · exact herase _ rfl
  · exact herase _ rfl
  · exact herase _ rfl

theorem iterate_drain {α : Type} : ∀ (n : Nat) (st : DomTree α × List (DomTree α × Nat)),
    st.2.length ≤ n → (Nat.iterate reconstructStep n st).2 = [] := by
  intro n
  induction n with
  | zero =>
    rintro ⟨m, cs⟩ h
    cases cs with
    | nil => rfl
    | cons x xs => simp at h
  | succ n ih =>
    rintro ⟨m, cs⟩ h
    rw [Function.iterate_succ_apply]
    cases cs with
    | nil => exact ih (m, []) (by simp)
    | cons x xs =>
      refine ih _ ?_
      rw [reconstructStep_length]
      simpa using Nat.le_of_succ_le_succ (by simpa using h)

/-- Claim C9: on a non-empty pending list one iteration of the
reconstruction loop removes exactly one `(element, level)` pair — the
length strictly decreases by one — and consequently iterating the loop
body `length` many times drains the list entirely: the loop terminates. -/
theorem claim9_termination :
    ∀ (mainElement : DomTree (ElementData × Nat)) (cs : List (DomTree (ElementData × Nat) × Nat)),
      cs ≠ [] →
      (reconstructStep (mainElement, cs)).2.length + 1 = cs.length
      ∧ (Nat.iterate reconstructStep cs.length (mainElement, cs)).2 = [] := by
  intro m cs h
  cases cs with
  | nil => exact absurd rfl h
  | cons x xs =>
    constructor
    · rw [reconstructStep_length]
      rfl
    · exact iterate_drain _ _ (le_refl _)

/-- Claim C9, witness instance: a singleton pending list is drained in one
step. -/
theorem claim9_witness :
    ([(DomTree.node (ElementData.mk ("b".data) [] [] none [] [], 1) [], 1)]
      : List (DomTree (ElementData × Nat) × Nat)) ≠ []
    ∧ (reconstructStep
        (DomTree.node (ElementData.mk ("a".data) [] [] none [] [], 0) [],
         [(DomTree.node (ElementData.mk ("b".data) [] [] none [] [], 1) [], 1)])).2.length + 1 = 1
    ∧ (Nat.iterate reconstructStep 1
        (DomTree.node (ElementData.mk ("a".data) [] [] none [] [], 0) [],
         [(DomTree.node (ElementData.mk ("b".data) [] [] none [] [], 1) [], 1)])).2 = [] := by
  have h := claim9_termination
    (DomTree.node (ElementData.mk ("a".data) [] [] none [] [], 0) [])
    [(DomTree.node (ElementData.mk ("b".data) [] [] none [] [], 1) [], 1)]
    (by simp)
  exact ⟨by simp, h.1, h.2⟩

/-- Claim C1, counterexample: the template `"div\n>>b\n>c"` — whose
level-2 line has no level-1 predecessor — renders with the children of the
`div` in the order `c` (line 2) before `b` (line 1), the reverse of their
document order, so `generate` does not preserve sibling order for *every*
template. -/
theorem claim1_counterexample :
    wfTemplate ("div\n>>b\n>c".data) = false
    ∧ (generate freshBuilder ("div\n>>b\n>c".data)).1.2 = none
    ∧ ¬ (∀ tr ∈ (generate freshBuilder ("div\n>>b\n>c".data)).1.1, DocOrdered tr) := by
  refine ⟨rfl, rfl, fun h => ?_⟩
  have hmem : DomTree.node (ElementData.mk ("div".data) [] [] none [] [], 0)
      [DomTree.node (ElementData.mk ("c".data) [] [] none [] [], 2) [],
       DomTree.node (ElementData.mk ("b".data) [] [] none [] [], 1) []]
      ∈ (generate freshBuilder ("div\n>>b\n>c".data)).1.1 := List.Mem.head _
  have hdo := h _ hmem
  cases hdo with
  | node a cs hinc hrec =>
    rcases List.pairwise_cons.mp hinc with ⟨hlt, _⟩
    have h21 := hlt _ (List.Mem.head _)
    simp [rootIdx] at h21

theorem dropWhile_eq_self_of_head {p : Char → Bool} {s : List Char}
    (h : ∀ c ∈ s.head?, p c = false) : s.dropWhile p = s := by
  cases s with
  | nil => rfl
  | cons c t => exact List.dropWhile_cons_of_neg (by simp [h c rfl])

theorem head?_dropWhile_false {p : Char → Bool} (l : List Char) :
    ∀ c ∈ (l.dropWhile p).head?, p c = false := by
  intro c hc
  rcases hd : l.dropWhile p with _ | ⟨x, t⟩
  · rw [hd] at hc; cases hc
  · rw [hd] at hc
    cases hc
    exact dropWhile_head_false hd

theorem getLast?_dropWhile {p : Char → Bool} :
    ∀ (l : List Char), l.dropWhile p ≠ [] → (l.dropWhile p).getLast? = l.getLast? := by
  intro l
  induction l with
  | nil => intro h; exact absurd rfl h
  | cons c t ih =>
    intro h
    by_cases hc : p c
    · rw [List.dropWhile_cons_of_pos hc] at h ⊢
      rw [ih h]
      cases t with
      | nil => exact absurd (by rfl) h
      | cons x xs => rw [List.getLast?_cons_cons]
    · rw [List.dropWhile_cons_of_neg hc]

theorem trimChars_eq_self {s : List Char}
    (h1 : ∀ c ∈ s.head?, wsB c = false) (h2 : ∀ c ∈ s.getLast?, wsB c = false) :
    trimChars s = s := by
  unfold trimChars
  rw [dropWhile_eq_self_of_head h1]
  rw [dropWhile_eq_self_of_head (by
    intro c hc
    rw [List.head?_reverse] at hc
    exact h2 c hc)]
  exact List.reverse_reverse s

theorem trimChars_getLast (s : List Char) :
    ∀ c ∈ (trimChars s).getLast?, wsB c = false := by
  intro c hc
  unfold trimChars at hc
  rw [List.getLast?_reverse] at hc
  exact head?_dropWhile_false _ c hc

theorem trimChars_head (s : List Char) :
    ∀ c ∈ (trimChars s).head?, wsB c = false := by
  intro c hc
  unfold trimChars at hc
  rw [List.head?_reverse] at hc
  rcases hz : (s.dropWhile wsB).reverse.dropWhile wsB with _ | ⟨x, t⟩
  · rw [hz] at hc; cases hc
  · rw [getLast?_dropWhile _ (by rw [hz]; simp), List.getLast?_reverse] at hc
    exact head?_dropWhile_false _ c hc

theorem mem_trimChars {c : Char} {s : List Char} (h : c ∈ trimChars s) : c ∈ s := by
  unfold trimChars at h
  rw [List.mem_reverse] at h
  have h2 := (List.dropWhile_sublist (l := (s.dropWhile wsB).reverse) (p := wsB)).mem h
  rw [List.mem_reverse] at h2
  exact (List.dropWhile_sublist (l := s) (p := wsB)).mem h2

theorem splitOnChar_not_mem_out {sep : Char} :
    ∀ {s x : List Char}, x ∈ splitOnChar sep s → sep ∉ x := by
  intro s
  induction s with
  | nil =>
    intro x hx
    rw [List.mem_singleton.mp hx]
    simp
  | cons c t ih =>
    intro x hx
    by_cases hc : c = sep
    · rw [splitOnChar, if_pos hc] at hx
      rcases List.mem_cons.mp hx with h | h
      · subst h; simp
      · exact ih h
    · rw [splitOnChar, if_neg hc] at hx
      rcases hsp : splitOnChar sep t with _ | ⟨h0, hs⟩
      · exact absurd hsp (splitOnChar_ne_nil t)
      · rw [hsp] at hx
        rcases List.mem_cons.mp hx with h | h
        · subst h
          intro hmem
          rcases List.mem_cons.mp hmem with h' | h'
          · exact hc h'.symm
          · exact ih (hsp ▸ List.mem_cons_self h0 hs) h'
        · exact ih (hsp ▸ List.mem_cons_of_mem h0 h)

theorem mem_extractLoop : ∀ (n : Nat) (L : List (List Char)) (x : List Char), L.length ≤ n →
    x ∈ extractLoop L → ∃ y ∈ L, x = trimChars y ∨ x = y := by
  intro n
  induction n with
  | zero =>
    intro L x hl hx
    cases L with
    | nil => cases hx
    | cons a t => simp at hl
  | succ n ih =>
    intro L x hl hx
    cases L with
    | nil => cases hx
    | cons a t =>
      by_cases ha : (trimChars a).isEmpty
      · cases t with
        | nil =>
          rw [show extractLoop [a] = [] from by rw [extractLoop.eq_def]; simp [ha]] at hx
          cases hx
        | cons y rest2 =>
          rw [show extractLoop (a :: y :: rest2) = y :: extractLoop rest2 from by
            rw [extractLoop.eq_def]; simp [ha]] at hx
          rcases List.mem_cons.mp hx with h | h
          · exact ⟨y, List.mem_cons_of_mem a (List.mem_cons_self y rest2), Or.inr h⟩
          · rcases ih rest2 x (by simp at hl; omega) h with ⟨z, hz, hor⟩
            exact ⟨z, List.mem_cons_of_mem a (List.mem_cons_of_mem y hz), hor⟩
      · rw [show extractLoop (a :: t) = trimChars a :: extractLoop t from by
          rw [extractLoop.eq_def]; simp [ha]] at hx
        rcases List.mem_cons.mp hx with h | h
        · exact ⟨a, List.mem_cons_self a t, Or.inl h⟩
        · rcases ih t x (by simpa using Nat.le_of_succ_le_succ hl) h with ⟨z, hz, hor⟩
          exact ⟨z, List.mem_cons_of_mem a hz, hor⟩

theorem no_newline_in_extract {t x : List Char} (hx : x ∈ extractLinesFrom t) : '\n' ∉ x := by
  unfold extractLinesFrom at hx
  rcases mem_extractLoop _ _ x (le_refl _) hx with ⟨y, hy, hor⟩
  have hyn : '\n' ∉ y := splitOnChar_not_mem_out hy
  rcases hor with h | h
  · subst h
    exact fun hm => hyn (mem_trimChars hm)
  · subst h
    exact hyn

theorem indent_foldl (rep : List Char) :
    ∀ (L : List (List Char)) (acc : List Char),
      L.foldl (fun acc line => acc ++ rep ++ trimChars line ++ ['\n']) acc
        = acc ++ (L.map (fun l => (rep ++ trimChars l) ++ ['\n'])).flatten := by
  intro L
  induction L with
  | nil => intro acc; simp
  | cons l ls ih =>
    intro acc
    rw [List.foldl_cons, ih]
    simp [List.append_assoc]

theorem map_append_newline_flatten :
    ∀ (M : List (List Char)), M ≠ [] →
      (M.map (fun m => m ++ ['\n'])).flatten = joinNl M ++ ['\n'] := by
  intro M
  induction M with
  | nil => intro h; exact absurd rfl h
  | cons m rest ih =>
    intro _
    cases rest with
    | nil => simp [joinNl]
    | cons m2 rest2 =>
      rw [List.map_cons, List.flatten_cons, ih (by simp)]
      show m ++ ['\n'] ++ (joinNl (m2 :: rest2) ++ ['\n'])
          = (m ++ '\n' :: joinNl (m2 :: rest2)) ++ ['\n']
      simp

theorem joinNl_head (M : List (List Char)) (hne : ∀ m ∈ M, m ≠ []) :
    ∀ c ∈ (joinNl M).head?, (∃ m ∈ M, c ∈ m.head?) := by
  intro c hc
  cases M with
  | nil => cases hc
  | cons m rest =>
    cases rest with
    | nil => exact ⟨m, List.mem_cons_self m [], hc⟩
    | cons m2 rest2 =>
      refine ⟨m, List.mem_cons_self _ _, ?_⟩
      rw [show joinNl (m :: m2 :: rest2) = m ++ '\n' :: joinNl (m2 :: rest2) from rfl] at hc
      cases hm : m with
      | nil => exact absurd hm (hne m (List.mem_cons_self _ _))
      | cons a t =>
        rw [hm] at hc
        simpa using hc

theorem joinNl_ne_nil {M : List (List Char)} (hM : M ≠ []) (hne : ∀ m ∈ M, m ≠ []) :
    joinNl M ≠ [] := by
  cases M with
  | nil => exact absurd rfl hM
  | cons m rest =>
    cases rest with
    | nil =>
      exact hne m (List.mem_cons_self _ _)
    | cons m2 rest2 =>
      show m ++ '\n' :: joinNl (m2 :: rest2) ≠ []
      simp

theorem joinNl_getLast (M : List (List Char)) (hne : ∀ m ∈ M, m ≠ []) :
    ∀ c ∈ (joinNl M).getLast?, (∃ m ∈ M, c ∈ m.getLast?) := by
  intro c hc
  induction M with
  | nil => cases hc
  | cons m rest ih =>
    cases rest with
    | nil => exact ⟨m, List.mem_cons_self m [], hc⟩
    | cons m2 rest2 =>
      rw [show joinNl (m :: m2 :: rest2) = m ++ '\n' :: joinNl (m2 :: rest2) from rfl] at hc
      have hjoin : joinNl (m2 :: rest2) ≠ [] :=
        joinNl_ne_nil (by simp) (fun x hx => hne x (List.mem_cons_of_mem m hx))
      rw [List.getLast?_append_of_ne_nil _ (by simp)] at hc
      rw [show ('\n' :: joinNl (m2 :: rest2)).getLast? = (joinNl (m2 :: rest2)).getLast? from by
        cases hj : joinNl (m2 :: rest2) with
        | nil => exact absurd hj hjoin
        | cons a t => rw [List.getLast?_cons_cons]] at hc
      rcases ih (fun x hx => hne x (List.mem_cons_of_mem m hx)) hc with ⟨z, hz, hcz⟩
      exact ⟨z, List.mem_cons_of_mem m hz, hcz⟩

theorem trimChars_append_newline {X : List Char} (hne : X ≠ [])
    (h1 : ∀ c ∈ X.head?, wsB c = false) (h2 : ∀ c ∈ X.getLast?, wsB c = false) :
    trimChars (X ++ ['\n']) = X := by
  unfold trimChars
  rw [dropWhile_eq_self_of_head (s := X ++ ['\n']) (by
    intro c hc
    rw [List.head?_append_of_ne_nil _ hne] at hc
    exact h1 c hc)]
  rw [show (X ++ ['\n']).reverse = '\n' :: X.reverse from by simp]
  rw [List.dropWhile_cons_of_pos (by rfl)]
  rw [dropWhile_eq_self_of_head (s := X.reverse) (by
    intro c hc
    rw [List.head?_reverse] at hc
    exact h2 c hc)]
  exact List.reverse_reverse X

theorem splitOnChar_joinNl :
    ∀ (M : List (List Char)), M ≠ [] → (∀ m ∈ M, '\n' ∉ m) →
      splitOnChar '\n' (joinNl M) = M := by
  intro M
  induction M with
  | nil => intro h; exact absurd rfl h
  | cons m rest ih =>
    intro _ hnl
    cases rest with
    | nil => exact splitOnChar_not_mem (hnl m (List.mem_cons_self _ _))
    | cons m2 rest2 =>
      show splitOnChar '\n' (m ++ '\n' :: joinNl (m2 :: rest2)) = m :: m2 :: rest2
      rw [splitOnChar_append_sep (hnl m (List.mem_cons_self _ _))]
      rw [ih (by simp) (fun x hx => hnl x (List.mem_cons_of_mem m hx))]

theorem extractLoop_eq_self :
    ∀ (M : List (List Char)), (∀ m ∈ M, trimChars m = m ∧ m ≠ []) → extractLoop M = M := by
  intro M
  induction M with
  | nil => intro _; rfl
  | cons m rest ih =>
    intro h
    rcases h m (List.mem_cons_self _ _) with ⟨ht, hne⟩
    have hemp : ¬ (trimChars m).isEmpty = true := by rw [ht, List.isEmpty_iff]; exact hne
    rw [show extractLoop (m :: rest) = trimChars m :: extractLoop rest from by
      rw [extractLoop.eq_def]; simp [hemp]]
    rw [ht, ih (fun x hx => h x (List.mem_cons_of_mem m hx))]

theorem core_head (ind : Nat) (hind : 1 ≤ ind) (l : List Char) :
    ∀ c ∈ (List.replicate ind '>' ++ trimChars l).head?, wsB c = false := by
  intro c hc
  cases ind with
  | zero => omega
  | succ n =>
    rw [show List.replicate (n + 1) '>' ++ trimChars l
        = '>' :: (List.replicate n '>' ++ trimChars l) from by
      rw [List.replicate_succ, List.cons_append]] at hc
    cases hc
    rfl

theorem mem_getLast?_replicate {c x : Char} : ∀ n, x ∈ (List.replicate n c).getLast? → x = c := by
  intro n
  induction n with
  | zero => intro h; cases h
  | succ m ih =>
    intro h
    cases m with
    | zero =>
      simp at h
      exact h.symm
    | succ k =>
      rw [List.replicate_succ, List.replicate_succ, List.getLast?_cons_cons,
        ← List.replicate_succ] at h
      exact ih h

theorem core_getLast (ind : Nat) (l : List Char) :
    ∀ c ∈ (List.replicate ind '>' ++ trimChars l).getLast?, wsB c = false := by
  intro c hc
  rcases htl : trimChars l with _ | ⟨a, t⟩
  · rw [htl, List.append_nil] at hc
    rw [mem_getLast?_replicate ind hc]
    rfl
  · rw [htl, List.getLast?_append_of_ne_nil _ (by simp)] at hc
    rw [← htl] at hc
    exact trimChars_getLast l c hc

theorem core_ne_nil (ind : Nat) (hind : 1 ≤ ind) (l : List Char) :
    List.replicate ind '>' ++ trimChars l ≠ [] := by
  cases ind with
  | zero => omega
  | succ n => simp [List.replicate_succ]

theorem core_trim_id (ind : Nat) (hind : 1 ≤ ind) (l : List Char) :
    trimChars (List.replicate ind '>' ++ trimChars l)
      = List.replicate ind '>' ++ trimChars l :=
  trimChars_eq_self (core_head ind hind l) (core_getLast ind l)

theorem indentTemplate_eq_joinNl (t : List Char) (ind : Nat) (hind : 1 ≤ ind) :
    indentTemplate t ind
      = joinNl ((extractLinesFrom t).map (fun l => List.replicate ind '>' ++ trimChars l)) := by
  unfold indentTemplate
  rw [indent_foldl, List.nil_append]
  cases hL : extractLinesFrom t with
  | nil => rfl
  | cons l0 ls =>
    rw [show ((l0 :: ls).map (fun l => (List.replicate ind '>' ++ trimChars l) ++ ['\n']))
        = (((l0 :: ls).map (fun l => List.replicate ind '>' ++ trimChars l)).map
            (fun m => m ++ ['\n'])) from by rw [List.map_map]; rfl]
    rw [map_append_newline_flatten _ (by simp)]
    have hne : ∀ m ∈ (l0 :: ls).map (fun l => List.replicate ind '>' ++ trimChars l), m ≠ [] := by
      intro m hm
      rcases List.mem_map.mp hm with ⟨l, _, rfl⟩
      exact core_ne_nil ind hind l
    refine trimChars_append_newline (joinNl_ne_nil (by simp) hne) ?_ ?_
    · intro c hc
      rcases joinNl_head _ hne c hc with ⟨m, hm, hcm⟩
      rcases List.mem_map.mp hm with ⟨l, _, rfl⟩
      exact core_head ind hind l c hcm
    · intro c hc
      rcases joinNl_getLast _ hne c hc with ⟨m, hm, hcm⟩
      rcases List.mem_map.mp hm with ⟨l, _, rfl⟩
      exact core_getLast ind l c hcm

theorem extractLines_indent (t : List Char) (ind : Nat) (hind : 1 ≤ ind) :
    extractLinesFrom (indentTemplate t ind)
      = (extractLinesFrom t).map (fun l => List.replicate ind '>' ++ trimChars l) := by
  rw [indentTemplate_eq_joinNl t ind hind]
  cases hL : extractLinesFrom t with
  | nil => rfl
  | cons l0 ls =>
    have hne : ∀ m ∈ (l0 :: ls).map (fun l => List.replicate ind '>' ++ trimChars l), m ≠ [] := by
      intro m hm
      rcases List.mem_map.mp hm with ⟨l, _, rfl⟩
      exact core_ne_nil ind hind l
    unfold extractLinesFrom
    rw [trimChars_eq_self
      (by
        intro c hc
        rcases joinNl_head _ hne c hc with ⟨m, hm, hcm⟩
        rcases List.mem_map.mp hm with ⟨l, _, rfl⟩
        exact core_head ind hind l c hcm)
      (by
        intro c hc
        rcases joinNl_getLast _ hne c hc with ⟨m, hm, hcm⟩
        rcases List.mem_map.mp hm with ⟨l, _, rfl⟩
        exact core_getLast ind l c hcm)]
    rw [splitOnChar_joinNl _ (by simp)
      (by
        intro m hm
        rcases List.mem_map.mp hm with ⟨l, hl, rfl⟩
        intro hmem
        rcases List.mem_append.mp hmem with h | h
        · have := List.eq_of_mem_replicate h
          cases this
        · exact no_newline_in_extract (t := t) (by rw [hL]; exact hl) (mem_trimChars h))]
    exact extractLoop_eq_self _
      (fun m hm => by
        rcases List.mem_map.mp hm with ⟨l, _, rfl⟩
        exact ⟨core_trim_id ind hind l, core_ne_nil ind hind l⟩)

/-- Claim C6: `indentTemplate` applied twice with depth 1 yields the same
template string — hence the same sequence of lines, with the same
depth-marker count and the same payload after the markers per line — as
`indentTemplate` with depth 2. -/
theorem claim6_indent_twice :
    ∀ t : List Char,
      indentTemplate (indentTemplate t 1) 1 = indentTemplate t 2
      ∧ ((extractLinesFrom (indentTemplate (indentTemplate t 1) 1)).map
            (fun l => (jsLevel l, l.drop (jsLevel l)))
          = (extractLinesFrom (indentTemplate t 2)).map
            (fun l => (jsLevel l, l.drop (jsLevel l)))) := by
  intro t
  have he : indentTemplate (indentTemplate t 1) 1 = indentTemplate t 2 := by
    rw [indentTemplate_eq_joinNl (indentTemplate t 1) 1 (by omega)]
    rw [indentTemplate_eq_joinNl t 2 (by omega)]
    rw [extractLines_indent t 1 (by omega), List.map_map]
    congr 1
    refine List.map_congr_left ?_
    intro l _
    show List.replicate 1 '>' ++ trimChars (List.replicate 1 '>' ++ trimChars l)
        = List.replicate 2 '>' ++ trimChars l
    rw [core_trim_id 1 (by omega) l]
    rfl
  exact ⟨he, by rw [he]⟩

theorem deepest_spec {α : Type} {cs : List (DomTree α × Nat)} (h : cs ≠ [])
    (hlev : ∀ p ∈ cs, 1 ≤ p.2) :
    ∃ A cd B, cs = A ++ cd :: B ∧ getIndexOfDeepestElement cs = A.length
      ∧ cd.2 = maxLevel cs ∧ (∀ b ∈ B, b.2 < maxLevel cs) := by
  by_cases hmx : maxLevel cs = 1
  · refine ⟨cs.dropLast, cs.getLast h, [], (List.dropLast_append_getLast h).symm, ?_, ?_, by simp⟩
    · unfold getIndexOfDeepestElement
      rw [if_pos hmx, List.length_dropLast]
    · have h1 := hlev _ (List.getLast_mem h)
      have h2 := maxLevel_ge (List.getLast_mem h)
      omega
  · rcases maxLevel_attained h with ⟨p, hp, hpl⟩
    rcases exists_last_decomp (fun x => x.2 = maxLevel cs) cs ⟨p, hp, hpl⟩ with
      ⟨A, cd, B, hdec, hcd, hB⟩
    refine ⟨A, cd, B, hdec, ?_, hcd, fun b hb =>
      lt_of_le_of_ne (maxLevel_ge (hdec ▸ List.mem_append_right A (List.mem_cons_of_mem cd hb)))
        (hB b hb)⟩
    unfold getIndexOfDeepestElement
    rw [if_neg hmx]
    conv_lhs => rw [show cs.enum = List.enumFrom 0 (A ++ cd :: B) from by rw [← hdec]; rfl]
    have hl := lastIdxFold_last (maxLevel cs) A cd B 0 1 hcd (fun b hb => hB b hb)
    simpa using hl

theorem nearest_spec {α : Type} {cs A B : List (DomTree α × Nat)} {cd : DomTree α × Nat}
    (hdec : cs = A ++ cd :: B) :
    (getIndexOfNearestParentElementOf A.length cs = none
       ∧ ∀ a ∈ A, (a.2 : Int) ≠ (cd.2 : Int) - 1)
    ∨ (∃ A₁ cp A₂, A = A₁ ++ cp :: A₂
       ∧ getIndexOfNearestParentElementOf A.length cs = some A₁.length
       ∧ (cp.2 : Int) = (cd.2 : Int) - 1
       ∧ ∀ a ∈ A₂, (a.2 : Int) ≠ (cd.2 : Int) - 1) := by
  have hget : cs.get? A.length = some cd := by rw [hdec]; exact get?_append_cons A cd B
  have htake : cs.take A.length = A := by rw [hdec]; exact List.take_left A (cd :: B)
  unfold getIndexOfNearestParentElementOf
  rw [hget, htake]
  by_cases hex : ∃ a ∈ A, (a.2 : Int) = (cd.2 : Int) - 1
  · right
    rcases exists_last_decomp (fun x => (x.2 : Int) = (cd.2 : Int) - 1) A hex with
      ⟨A₁, cp, A₂, hA, hcp, hA₂⟩
    refine ⟨A₁, cp, A₂, hA, ?_, hcp, fun a ha => hA₂ a ha⟩
    conv_lhs => rw [show A.enum = List.enumFrom 0 (A₁ ++ cp :: A₂) from by rw [← hA]; rfl]
    have hl := lastParFold_last ((cd.2 : Int)) A₁ cp A₂ 0 none hcp (fun b hb => hA₂ b hb)
    simpa using hl
  · left
    push_neg at hex
    exact ⟨lastParFold_no _ A 0 none hex, hex⟩

theorem reconstructStep_char {α : Type} (main : DomTree α) {cs : List (DomTree α × Nat)}
    (h : cs ≠ []) (hlev : ∀ p ∈ cs, 1 ≤ p.2) (hwf : WfL (cs.map Prod.snd)) :
    (∃ A cd, cs = A ++ [cd] ∧ maxLevel cs = 1 ∧ cd.2 = 1 ∧ (∀ a ∈ A, a.2 = 1)
       ∧ reconstructStep (main, cs) = (prependChild main cd.1, A))
    ∨ (∃ A₁ cp A₂ cd B, cs = A₁ ++ cp :: A₂ ++ cd :: B
       ∧ 2 ≤ maxLevel cs ∧ cd.2 = maxLevel cs
       ∧ cp.2 + 1 = cd.2
       ∧ (∀ b ∈ B, b.2 < maxLevel cs)
       ∧ reconstructStep (main, cs)
           = (main, A₁ ++ (prependChild cp.1 cd.1, cp.2) :: A₂ ++ B)) := by
  rcases deepest_spec h hlev with ⟨A, cd, B, hdec, hd, hcdmx, hBlt⟩
  have hcdcs : cd ∈ cs := hdec ▸ List.mem_append_right A (List.mem_cons_self cd B)
  rcases nearest_spec hdec with ⟨hnone, hAne⟩ | ⟨A₁, cp, A₂, hA, hsome, hcp, hA₂⟩
  · -- no nearest parent: with well-formed levels this forces maxLevel = 1
    have hm1 : maxLevel cs = 1 := by
      by_contra hne1
      have h2 : 2 ≤ maxLevel cs := by
        have := hlev cd hcdcs
        omega
      have hwit := hwf (A.map Prod.snd) cd.2 (B.map Prod.snd)
        (by rw [hdec]; simp) (by omega)
      rcases List.mem_map.mp hwit with ⟨a, ha, hval⟩
      refine hAne a ha ?_
      have h1a := hlev cd hcdcs
      omega
    have hBnil : B = [] := by
      cases B with
      | nil => rfl
      | cons b bs =>
        have hb1 := hlev b (hdec ▸ List.mem_append_right A
          (List.mem_cons_of_mem cd (List.mem_cons_self b bs)))
        have hb2 := hBlt b (List.mem_cons_self b bs)
        omega
    subst hBnil
    refine Or.inl ⟨A, cd, hdec, hm1, by omega, fun a ha => ?_, ?_⟩
    · have h1 := hlev a (hdec ▸ List.mem_append_left _ ha)
      have h2 := maxLevel_ge (hdec ▸ List.mem_append_left _ ha)
      omega
    · have hget : cs.get? (getIndexOfDeepestElement cs) = some cd := by
        rw [hd, hdec]
        exact get?_append_cons A cd []
      have hnone' : getIndexOfNearestParentElementOf (getIndexOfDeepestElement cs) cs = none := by
        rw [hd]; exact hnone
      cases hcs : cs with
      | nil => exact absurd hcs h
      | cons x xs =>
        rw [← hcs]
        rw [show reconstructStep (main, cs)
            = (match getIndexOfNearestParentElementOf (getIndexOfDeepestElement cs) cs,
                cs.get? (getIndexOfDeepestElement cs) with
               | some p, some cd =>
                 (match cs.get? p with
                  | some cp => (main, (cs.set p (prependChild cp.1 cd.1, cp.2)).eraseIdx
                      (getIndexOfDeepestElement cs))
                  | none => (main, cs.eraseIdx (getIndexOfDeepestElement cs)))
               | none, some cd => (prependChild main cd.1, cs.eraseIdx (getIndexOfDeepestElement cs))
               | _, none => (main, cs.eraseIdx (getIndexOfDeepestElement cs)))
            from by rw [hcs]; rfl]
        rw [hnone', hget]
        show (prependChild main cd.1, cs.eraseIdx (getIndexOfDeepestElement cs))
            = (prependChild main cd.1, A)
        rw [hd, hdec, eraseIdx_append_cons A cd [], List.append_nil]
  · -- a nearest parent exists
    have hcpcs : cp ∈ cs := by
      rw [hdec, hA]
      exact List.mem_append_left _ (List.mem_append_right _ (List.mem_cons_self cp A₂))
    have hcp2 : cp.2 + 1 = cd.2 := by
      have := hlev cp hcpcs
      omega
    have hmx2 : 2 ≤ maxLevel cs := by
      have h1 := hlev cp hcpcs
      omega
    refine Or.inr ⟨A₁, cp, A₂, cd, B, by rw [hdec, hA], hmx2, hcdmx, hcp2,
      hBlt, ?_⟩
    have hget : cs.get? (getIndexOfDeepestElement cs) = some cd := by
      rw [hd, hdec]
      exact get?_append_cons A cd B
    have hsome' : getIndexOfNearestParentElementOf (getIndexOfDeepestElement cs) cs
        = some A₁.length := by
      rw [hd]; exact hsome
    have hgetp : cs.get? A₁.length = some cp := by
      rw [hdec, hA, show (A₁ ++ cp :: A₂) ++ cd :: B = A₁ ++ cp :: (A₂ ++ cd :: B) from by simp]
      exact get?_append_cons A₁ cp (A₂ ++ cd :: B)
    cases hcs : cs with
    | nil => exact absurd hcs h
    | cons x xs =>
      rw [← hcs]
      rw [show reconstructStep (main, cs)
          = (match getIndexOfNearestParentElementOf (getIndexOfDeepestElement cs) cs,
              cs.get? (getIndexOfDeepestElement cs) with
             | some p, some cd =>
               (match cs.get? p with
                | some cp => (main, (cs.set p (prependChild cp.1 cd.1, cp.2)).eraseIdx
                    (getIndexOfDeepestElement cs))
                | none => (main, cs.eraseIdx (getIndexOfDeepestElement cs)))
             | none, some cd => (prependChild main cd.1, cs.eraseIdx (getIndexOfDeepestElement cs))
             | _, none => (main, cs.eraseIdx (getIndexOfDeepestElement cs)))
          from by rw [hcs]; rfl]
      rw [hsome', hget]
      dsimp only
      rw [hgetp]
      show (main, (cs.set A₁.length (prependChild cp.1 cd.1, cp.2)).eraseIdx
          (getIndexOfDeepestElement cs))
          = (main, A₁ ++ (prependChild cp.1 cd.1, cp.2) :: A₂ ++ B)
      have hset : cs.set A₁.length (prependChild cp.1 cd.1, cp.2)
          = (A₁ ++ (prependChild cp.1 cd.1, cp.2) :: A₂) ++ cd :: B := by
        rw [hdec, hA, show (A₁ ++ cp :: A₂) ++ cd :: B = A₁ ++ cp :: (A₂ ++ cd :: B) from by simp]
        rw [set_append_cons A₁ cp (prependChild cp.1 cd.1, cp.2) (A₂ ++ cd :: B)]
        simp
      rw [hd, hset]
      rw [show A.length = (A₁ ++ (prependChild cp.1 cd.1, cp.2) :: A₂).length from by
        rw [hA]; simp]
      rw [show A₁ ++ (prependChild cp.1 cd.1, cp.2) :: A₂ ++ cd :: B
          = (A₁ ++ (prependChild cp.1 cd.1, cp.2) :: A₂) ++ cd :: B from by simp]
      rw [eraseIdx_append_cons]

theorem rootIdx_prependChild {γ : Type} (p c : DomTree (γ × Nat)) :
    rootIdx (prependChild p c) = rootIdx p := by
  cases p with
  | node a cs =>
    cases a with
    | mk x i => rfl

theorem treeChildren_prependChild {α : Type} (p c : DomTree α) :
    treeChildren (prependChild p c) = c :: treeChildren p := by
  cases p
  rfl

theorem treeChildren_node {α : Type} (a : α) (cs : List (DomTree α)) :
    treeChildren (DomTree.node a cs) = cs := rfl

theorem docOrdered_leaf {γ : Type} (a : γ × Nat) : DocOrdered (DomTree.node a []) :=
  .node a [] (by simp) (by simp)

theorem docOrdered_prepend {γ : Type} {p c : DomTree (γ × Nat)} (hp : DocOrdered p)
    (hc : DocOrdered c) (hlt : ∀ x ∈ treeChildren p, rootIdx c < rootIdx x) :
    DocOrdered (prependChild p c) := by
  cases p with
  | node a cs =>
    cases hp with
    | node _ _ hinc hrec =>
      refine .node a (c :: cs) (List.pairwise_cons.mpr ⟨fun x hx => hlt x hx, hinc⟩) ?_
      intro x hx
      rcases List.mem_cons.mp hx with h | h
      · subst h; exact hc
      · exact hrec x h

theorem WfL_remove (X Y : List Nat) (M : Nat) (hwf : WfL (X ++ M :: Y))
    (hY : ∀ l ∈ Y, l ≤ M) : WfL (X ++ Y) := by
  intro pre l post hsplit h2
  rcases List.append_eq_append_iff.mp hsplit with ⟨a', hpre, hYsplit⟩ | ⟨c', hX, hlsplit⟩
  · -- pre = X ++ a', Y = a' ++ l :: post : the split point lies in Y
    have hlY : l ∈ Y := by rw [hYsplit]; exact List.mem_append_right a' (List.mem_cons_self l post)
    have hwit := hwf (X ++ M :: a') l post
      (by rw [hYsplit]; simp) h2
    rcases List.mem_append.mp hwit with hin | hin
    · rw [hpre]; exact List.mem_append_left a' hin
    · rcases List.mem_cons.mp hin with heq | hin
      · have := hY l hlY
        omega
      · rw [hpre]; exact List.mem_append_right X hin
  · -- X = pre ++ c', l :: post = c' ++ Y
    cases c' with
    | nil =>
      have hlY : l ∈ Y := by
        have : l :: post = Y := by simpa using hlsplit
        rw [← this]; exact List.mem_cons_self l post
      have hwit := hwf (pre ++ [M]) l post
        (by
          have hY2 : Y = l :: post := by simpa using hlsplit.symm
          rw [hX, hY2]; simp) h2
      rcases List.mem_append.mp hwit with hin | hin
      · exact hin
      · rcases List.mem_cons.mp hin with heq | hin
        · have := hY l hlY
          omega
        · cases hin
    | cons c0 c'' =>
      have hc0 : l = c0 ∧ post = c'' ++ Y := by
        have : l :: post = c0 :: (c'' ++ Y) := by simpa using hlsplit
        exact ⟨by injection this, by injection this⟩
      exact hwf pre l (c'' ++ M :: Y)
        (by rw [hX, hc0.1]; simp) h2

theorem step_preserves_inv {γ : Type} {main : DomTree (γ × Nat)}
    {cs : List (DomTree (γ × Nat) × Nat)} (h : cs ≠ []) (hinv : ReconInv main cs) :
    ReconInv (reconstructStep (main, cs)).1 (reconstructStep (main, cs)).2 := by
  obtain ⟨hpw, hlev, hwf, hdo, hdm, hmc, hpc⟩ := hinv
  rcases reconstructStep_char main h hlev hwf with
    ⟨A, cd, hdec, hm1, hcd1, hA1, hstep⟩ |
    ⟨A₁, cp, A₂, cd, B, hdec, hmx2, hcdmx, hcp2, hBlt, hstep⟩
  · rw [hstep]
    show ReconInv (prependChild main cd.1) A
    subst hdec
    have hcdmem : cd ∈ A ++ [cd] := List.mem_append_right A (List.mem_cons_self cd [])
    have hpwT := List.pairwise_map.mp hpw
    refine ⟨?_, ?_, ?_, ?_, ?_, ?_, ?_⟩
    · exact hpw.sublist (List.Sublist.map _ (List.sublist_append_left A [cd]))
    · exact fun p hp => hlev p (List.mem_append_left _ hp)
    · intro pre l post hsplit h2
      exfalso
      have hlmem : l ∈ A.map Prod.snd := by
        rw [hsplit]
        exact List.mem_append_right pre (List.mem_cons_self l post)
      rcases List.mem_map.mp hlmem with ⟨a, ha, hval⟩
      have := hA1 a ha
      omega
    · exact fun p hp => hdo p (List.mem_append_left _ hp)
    · exact docOrdered_prepend hdm (hdo cd hcdmem) (fun x hx => hmc x hx cd hcdmem)
    · intro c hc p hp
      rw [treeChildren_prependChild] at hc
      rcases List.mem_cons.mp hc with hceq | hcmem
      · subst hceq
        exact (List.pairwise_append.mp hpwT).2.2 p hp cd (List.mem_cons_self cd [])
      · exact hmc c hcmem p (List.mem_append_left _ hp)
    · intro p hp c hc q hq hlt'
      have h1 := hA1 p hp
      have h2 := hA1 q hq
      omega
  · rw [hstep]
    show ReconInv main (A₁ ++ (prependChild cp.1 cd.1, cp.2) :: A₂ ++ B)
    subst hdec
    have hvr : rootIdx (prependChild cp.1 cd.1) = rootIdx cp.1 := rootIdx_prependChild _ _
    have hold : ∀ x, x ∈ A₁ ∨ x = cp ∨ x ∈ A₂ ∨ x = cd ∨ x ∈ B →
        x ∈ A₁ ++ (cp :: A₂) ++ cd :: B := by
      intro x hx
      simp only [List.mem_append, List.mem_cons]
      tauto
    have hcpmem : cp ∈ A₁ ++ (cp :: A₂) ++ cd :: B := hold cp (Or.inr (Or.inl rfl))
    have hcdmem : cd ∈ A₁ ++ (cp :: A₂) ++ cd :: B :=
      hold cd (Or.inr (Or.inr (Or.inr (Or.inl rfl))))
    have hcplt : cp.2 < cd.2 := by omega
    have hpwT := List.pairwise_map.mp hpw
    rcases List.pairwise_append.mp hpwT with ⟨pwLeft, pwCdB, hLeftCdB⟩
    rcases List.pairwise_append.mp pwLeft with ⟨pwA₁, pwCpA₂, hA₁cpA₂⟩
    rcases List.pairwise_cons.mp pwCpA₂ with ⟨hcpA₂, pwA₂⟩
    rcases List.pairwise_cons.mp pwCdB with ⟨hcdB, pwB⟩
    -- pointwise order facts on root indices
    have hlt_A₁ : ∀ a ∈ A₁, ∀ x, x = cp ∨ x ∈ A₂ ∨ x = cd ∨ x ∈ B →
        rootIdx a.1 < rootIdx x.1 := by
      intro a ha x hx
      rcases hx with he | hx | he | hx
      · rw [he]; exact hA₁cpA₂ a ha cp (List.mem_cons_self cp A₂)
      · exact hA₁cpA₂ a ha x (List.mem_cons_of_mem cp hx)
      · rw [he]
        exact hLeftCdB a (List.mem_append_left _ ha) cd (List.mem_cons_self cd B)
      · exact hLeftCdB a (List.mem_append_left _ ha) x (List.mem_cons_of_mem cd hx)
    have hlt_cp : ∀ x, x ∈ A₂ ∨ x = cd ∨ x ∈ B → rootIdx cp.1 < rootIdx x.1 := by
      intro x hx
      rcases hx with hx | he | hx
      · exact hcpA₂ x hx
      · rw [he]
        exact hLeftCdB cp (List.mem_append_right A₁ (List.mem_cons_self cp A₂)) cd
          (List.mem_cons_self cd B)
      · exact hLeftCdB cp (List.mem_append_right A₁ (List.mem_cons_self cp A₂)) x
          (List.mem_cons_of_mem cd hx)
    have hlt_A₂ : ∀ a ∈ A₂, ∀ x, x = cd ∨ x ∈ B → rootIdx a.1 < rootIdx x.1 := by
      intro a ha x hx
      rcases hx with he | hx
      · rw [he]
        exact hLeftCdB a (List.mem_append_right A₁ (List.mem_cons_of_mem cp ha)) cd
          (List.mem_cons_self cd B)
      · exact hLeftCdB a (List.mem_append_right A₁ (List.mem_cons_of_mem cp ha)) x
          (List.mem_cons_of_mem cd hx)
    have hnew_cases : ∀ {x : DomTree (γ × Nat) × Nat},
        x ∈ A₁ ++ (prependChild cp.1 cd.1, cp.2) :: A₂ ++ B →
        x ∈ A₁ ∨ x = (prependChild cp.1 cd.1, cp.2) ∨ x ∈ A₂ ∨ x ∈ B := by
      intro x hx
      simp only [List.mem_append, List.mem_cons] at hx
      tauto
    refine ⟨?_, ?_, ?_, ?_, hdm, ?_, ?_⟩
    · -- (1) strictly increasing root indices
      refine List.pairwise_map.mpr ?_
      have hgoal : List.Pairwise (fun a b => rootIdx a.1 < rootIdx b.1)
          (A₁ ++ ((prependChild cp.1 cd.1, cp.2) :: A₂) ++ B) := by
        refine List.pairwise_append.mpr ⟨?_, pwB, ?_⟩
        · refine List.pairwise_append.mpr ⟨pwA₁, ?_, ?_⟩
          · refine List.pairwise_cons.mpr ⟨?_, pwA₂⟩
            intro b hb
            show rootIdx (prependChild cp.1 cd.1, cp.2).1 < rootIdx b.1
            rw [show (prependChild cp.1 cd.1, cp.2).1 = prependChild cp.1 cd.1 from rfl, hvr]
            exact hlt_cp b (Or.inl hb)
          · intro a ha b hb
            rcases List.mem_cons.mp hb with he | hb
            · subst he
              show rootIdx a.1 < rootIdx (prependChild cp.1 cd.1, cp.2).1
              rw [show (prependChild cp.1 cd.1, cp.2).1 = prependChild cp.1 cd.1 from rfl, hvr]
              exact hlt_A₁ a ha cp (Or.inl rfl)
            · exact hlt_A₁ a ha b (Or.inr (Or.inl hb))
        · intro a ha b hb
          rcases List.mem_append.mp ha with ha | ha
          · exact hlt_A₁ a ha b (Or.inr (Or.inr (Or.inr hb)))
          · rcases List.mem_cons.mp ha with he | ha
            · subst he
              show rootIdx (prependChild cp.1 cd.1, cp.2).1 < rootIdx b.1
              rw [show (prependChild cp.1 cd.1, cp.2).1 = prependChild cp.1 cd.1 from rfl, hvr]
              exact hlt_cp b (Or.inr (Or.inr hb))
            · exact hlt_A₂ a ha b (Or.inr hb)
      have hsame : A₁ ++ ((prependChild cp.1 cd.1, cp.2) :: A₂) ++ B
          = A₁ ++ (prependChild cp.1 cd.1, cp.2) :: A₂ ++ B := by simp
      rw [← hsame]
      exact hgoal
    · -- (2) levels at least 1
      intro p hp
      rcases hnew_cases hp with hm | he | hm | hm
      · exact hlev p (hold p (Or.inl hm))
      · rw [he]
        exact hlev cp hcpmem
      · exact hlev p (hold p (Or.inr (Or.inr (Or.inl hm))))
      · exact hlev p (hold p (Or.inr (Or.inr (Or.inr (Or.inr hm)))))
    · -- (3) well-formed levels after removing the maximal level cd.2
      have hmap : (A₁ ++ (prependChild cp.1 cd.1, cp.2) :: A₂ ++ B).map Prod.snd
          = (A₁.map Prod.snd ++ cp.2 :: A₂.map Prod.snd) ++ B.map Prod.snd := by
        simp
      rw [hmap]
      refine WfL_remove _ _ cd.2 ?_ ?_
      · have hmap2 : (A₁ ++ (cp :: A₂) ++ cd :: B).map Prod.snd
            = (A₁.map Prod.snd ++ cp.2 :: A₂.map Prod.snd) ++ cd.2 :: B.map Prod.snd := by
          simp
        rw [← hmap2]
        exact hwf
      · intro l hl
        rcases List.mem_map.mp hl with ⟨b, hb, hval⟩
        have := hBlt b hb
        omega
    · -- (4) all pending trees are document ordered
      intro p hp
      rcases hnew_cases hp with hm | he | hm | hm
      · exact hdo p (hold p (Or.inl hm))
      · rw [he]
        refine docOrdered_prepend (hdo cp hcpmem) (hdo cd hcdmem) ?_
        intro x hx
        exact hpc cp hcpmem x hx cd hcdmem hcplt
      · exact hdo p (hold p (Or.inr (Or.inr (Or.inl hm))))
      · exact hdo p (hold p (Or.inr (Or.inr (Or.inr (Or.inr hm)))))
    · -- (6) children of the main element dominate all pending roots
      intro c hc p hp
      rcases hnew_cases hp with hm | he | hm | hm
      · exact hmc c hc p (hold p (Or.inl hm))
      · rw [he]
        show rootIdx (prependChild cp.1 cd.1, cp.2).1 < rootIdx c
        rw [show (prependChild cp.1 cd.1, cp.2).1 = prependChild cp.1 cd.1 from rfl, hvr]
        exact hmc c hc cp hcpmem
      · exact hmc c hc p (hold p (Or.inr (Or.inr (Or.inl hm))))
      · exact hmc c hc p (hold p (Or.inr (Or.inr (Or.inr (Or.inr hm)))))
    · -- (7) children of pending elements dominate deeper pending roots
      intro p hp c hc q hq hlt2
      rcases hnew_cases hp with hpm | hpe | hpm | hpm
      · -- p ∈ A₁
        rcases hnew_cases hq with hqm | hqe | hqm | hqm
        · exact hpc p (hold p (Or.inl hpm)) c hc q (hold q (Or.inl hqm)) hlt2
        · rw [hqe] at hlt2 ⊢
          show rootIdx (prependChild cp.1 cd.1, cp.2).1 < rootIdx c
          rw [show (prependChild cp.1 cd.1, cp.2).1 = prependChild cp.1 cd.1 from rfl, hvr]
          exact hpc p (hold p (Or.inl hpm)) c hc cp hcpmem hlt2
        · exact hpc p (hold p (Or.inl hpm)) c hc q
            (hold q (Or.inr (Or.inr (Or.inl hqm)))) hlt2
        · exact hpc p (hold p (Or.inl hpm)) c hc q
            (hold q (Or.inr (Or.inr (Or.inr (Or.inr hqm))))) hlt2
      · -- p is the updated parent; its level is cp.2
        rw [hpe] at hlt2 hc
        rw [show treeChildren (prependChild cp.1 cd.1, cp.2).1
            = cd.1 :: treeChildren cp.1 from treeChildren_prependChild cp.1 cd.1] at hc
        have hlt3 : cp.2 < q.2 := hlt2
        rcases List.mem_cons.mp hc with hce | hcm
        · -- the fresh child cd.1
          subst hce
          rcases hnew_cases hq with hqm | hqe | hqm | hqm
          · exact hlt_A₁ q hqm cd (Or.inr (Or.inr (Or.inl rfl)))
          · rw [hqe] at hlt3
            exact absurd hlt3 (by simp)
          · exact hlt_A₂ q hqm cd (Or.inl rfl)
          · have hq2 := hBlt q hqm
            omega
        · -- an old child of cp
          rcases hnew_cases hq with hqm | hqe | hqm | hqm
          · exact hpc cp hcpmem c hcm q (hold q (Or.inl hqm)) hlt3
          · rw [hqe] at hlt3
            exact absurd hlt3 (by simp)
          · exact hpc cp hcpmem c hcm q (hold q (Or.inr (Or.inr (Or.inl hqm)))) hlt3
          · exact hpc cp hcpmem c hcm q
              (hold q (Or.inr (Or.inr (Or.inr (Or.inr hqm))))) hlt3
      · -- p ∈ A₂
        rcases hnew_cases hq with hqm | hqe | hqm | hqm
        · exact hpc p (hold p (Or.inr (Or.inr (Or.inl hpm)))) c hc q
            (hold q (Or.inl hqm)) hlt2
        · rw [hqe] at hlt2 ⊢
          show rootIdx (prependChild cp.1 cd.1, cp.2).1 < rootIdx c
          rw [show (prependChild cp.1 cd.1, cp.2).1 = prependChild cp.1 cd.1 from rfl, hvr]
          exact hpc p (hold p (Or.inr (Or.inr (Or.inl hpm)))) c hc cp hcpmem hlt2
        · exact hpc p (hold p (Or.inr (Or.inr (Or.inl hpm)))) c hc q
            (hold q (Or.inr (Or.inr (Or.inl hqm)))) hlt2
        · exact hpc p (hold p (Or.inr (Or.inr (Or.inl hpm)))) c hc q
            (hold q (Or.inr (Or.inr (Or.inr (Or.inr hqm))))) hlt2
      · -- p ∈ B
        rcases hnew_cases hq with hqm | hqe | hqm | hqm
        · exact hpc p (hold p (Or.inr (Or.inr (Or.inr (Or.inr hpm))))) c hc q
            (hold q (Or.inl hqm)) hlt2
        · rw [hqe] at hlt2 ⊢
          show rootIdx (prependChild cp.1 cd.1, cp.2).1 < rootIdx c
          rw [show (prependChild cp.1 cd.1, cp.2).1 = prependChild cp.1 cd.1 from rfl, hvr]
          exact hpc p (hold p (Or.inr (Or.inr (Or.inr (Or.inr hpm))))) c hc cp hcpmem hlt2
        · exact hpc p (hold p (Or.inr (Or.inr (Or.inr (Or.inr hpm))))) c hc q
            (hold q (Or.inr (Or.inr (Or.inl hqm)))) hlt2
        · exact hpc p (hold p (Or.inr (Or.inr (Or.inr (Or.inr hpm))))) c hc q
            (hold q (Or.inr (Or.inr (Or.inr (Or.inr hqm))))) hlt2

theorem buildTree_inv {γ : Type} :
    ∀ (n : Nat) (main : DomTree (γ × Nat)) (cs : List (DomTree (γ × Nat) × Nat)),
      cs.length = n → ReconInv main cs → DocOrdered (buildTree main cs) := by
  intro n
  induction n with
  | zero =>
    intro main cs hl hinv
    cases cs with
    | nil => exact hinv.2.2.2.2.1
    | cons x xs => simp at hl
  | succ n ih =>
    intro main cs hl hinv
    cases cs with
    | nil => simp at hl
    | cons x xs =>
      have hpres := step_preserves_inv (by simp) hinv
      have hlen : (reconstructStep (main, x :: xs)).2.length = n := by
        rw [reconstructStep_length]
        simpa using hl
      have hres := ih (reconstructStep (main, x :: xs)).1 (reconstructStep (main, x :: xs)).2
        hlen hpres
      unfold buildTree at hres ⊢
      rw [hlen] at hres
      rw [hl, Function.iterate_succ_apply]
      exact hres

theorem buildChildrenLoop_shape {symbol : List Char} {events : List EventBinding}
    {lines : List (List Char)} :
    ∀ {ks : List Nat} {cs : List (DomTree (ElementData × Nat) × Nat)},
      buildChildrenLoop symbol events lines ks = Except.ok cs →
      cs.map Prod.snd = ks.map (fun k => jsLevel (lines.getD k []))
      ∧ cs.map (fun p => rootIdx p.1) = ks
      ∧ ∀ p ∈ cs, treeChildren p.1 = [] ∧ DocOrdered p.1 := by
  intro ks
  induction ks with
  | nil =>
    intro cs h
    have hcs : cs = [] := by
      have h2 : (Except.ok [] : Except JsError (List (DomTree (ElementData × Nat) × Nat)))
          = Except.ok cs := h
      injection h2 with h3
      exact h3.symm
    subst hcs
    exact ⟨rfl, rfl, by simp⟩
  | cons k kt ih =>
    intro cs h
    rw [show buildChildrenLoop symbol events lines (k :: kt)
        = (match createElementFromLine symbol events (lines.getD k []) with
           | .error e => .error e
           | .ok el =>
             match buildChildrenLoop symbol events lines kt with
             | .error e => .error e
             | .ok rest => .ok ((DomTree.node (el, k) [], jsLevel (lines.getD k [])) :: rest))
        from rfl] at h
    rcases hce : createElementFromLine symbol events (lines.getD k []) with e | el <;>
      rw [hce] at h
    · exact absurd h (by simp)
    · rcases hrec : buildChildrenLoop symbol events lines kt with e | rest <;>
        rw [hrec] at h
      · exact absurd h (by simp)
      · have hcs : cs = (DomTree.node (el, k) [], jsLevel (lines.getD k [])) :: rest := by
          have := h
          injection this with h'
          exact h'.symm
        subst hcs
        obtain ⟨ih1, ih2, ih3⟩ := ih hrec
        refine ⟨?_, ?_, ?_⟩
        · simp only [List.map_cons, ih1]
        · rw [List.map_cons, ih2]
          rfl
        · intro p hp
          rcases List.mem_cons.mp hp with he | hm
          · rw [he]
            exact ⟨rfl, docOrdered_leaf _⟩
          · exact ih3 p hm

theorem mainsAux_gap (lines : List (List Char)) :
    ∀ (ls : List (List Char)) (s : Nat),
      s + ls.length = lines.length →
      (∀ j, j < ls.length → lines.getD (s + j) [] = ls.getD j []) →
      GapsOK lines (mainLinesAux s ls)
      ∧ (∀ k, s ≤ k → k < nextMainIdx lines (mainLinesAux s ls) →
          jsLevel (lines.getD k []) ≠ 0) := by
  intro ls
  induction ls with
  | nil =>
    intro s hlen _
    simp only [List.length_nil, Nat.add_zero] at hlen
    constructor
    · exact trivial
    · intro k hk1 hk2
      exfalso
      simp only [mainLinesAux, nextMainIdx] at hk2
      omega
  | cons l ls' ih =>
    intro s hlen halign
    have hs0 : lines.getD s [] = l := by
      have := halign 0 (by simp)
      simpa using this
    have hlen' : (s + 1) + ls'.length = lines.length := by
      simp only [List.length_cons] at hlen
      omega
    have halign' : ∀ j, j < ls'.length → lines.getD (s + 1 + j) [] = ls'.getD j [] := by
      intro j hj
      have := halign (j + 1) (by simp; omega)
      rw [show s + (j + 1) = s + 1 + j from by omega] at this
      simpa using this
    obtain ⟨ihA, ihB⟩ := ih (s + 1) hlen' halign'
    by_cases hz : jsLevel l = 0
    · rw [show mainLinesAux s (l :: ls') = (l, s) :: mainLinesAux (s + 1) ls' from by
        simp [mainLinesAux, hz]]
      constructor
      · refine ⟨?_, ihA⟩
        intro k hk1 hk2
        exact ihB k (by omega) hk2
      · intro k hk1 hk2
        exfalso
        simp only [nextMainIdx] at hk2
        omega
    · rw [show mainLinesAux s (l :: ls') = mainLinesAux (s + 1) ls' from by
        simp [mainLinesAux, hz]]
      refine ⟨ihA, ?_⟩
      intro k hk1 hk2
      by_cases hks : k = s
      · rw [hks, hs0]
        exact hz
      · exact ihB k (by omega) hk2

theorem gaps_main (lines : List (List Char)) : GapsOK lines (mainLinesOf lines) := by
  have := mainsAux_gap lines lines 0 (by omega) (by intro j hj; rw [Nat.zero_add])
  exact this.1

theorem wfLevelsAux_spec :
    ∀ (ls seen : List Nat), wfLevelsAux seen ls = true →
      ∀ (pre : List Nat) (l : Nat) (post : List Nat), ls = pre ++ l :: post → 2 ≤ l →
        (l - 1) ∈ pre ∨ (l - 1) ∈ seen := by
  intro ls
  induction ls with
  | nil =>
    intro seen _ pre l post hsplit _
    exact absurd hsplit (by simp)
  | cons x xs ih =>
    intro seen h pre l post hsplit h2
    rw [show wfLevelsAux seen (x :: xs)
        = ((decide (x < 2) || seen.contains (x - 1)) && wfLevelsAux (x :: seen) xs)
        from rfl] at h
    rw [Bool.and_eq_true] at h
    rcases h with ⟨hx, hrest⟩
    cases pre with
    | nil =>
      have hxl : x = l ∧ xs = post := by
        have : x :: xs = l :: post := by simpa using hsplit
        exact ⟨by injection this, by injection this⟩
      rw [Bool.or_eq_true] at hx
      rcases hx with hlt | hcon
      · have := of_decide_eq_true hlt
        omega
      · right
        rw [← hxl.1]
        simpa using hcon
    | cons p pre' =>
      have hxp : x = p ∧ xs = pre' ++ l :: post := by
        have : x :: xs = p :: (pre' ++ l :: post) := by simpa using hsplit
        exact ⟨by injection this, by injection this⟩
      rcases ih (x :: seen) hrest pre' l post hxp.2 h2 with hin | hin
      · exact Or.inl (List.mem_cons_of_mem p hin)
      · rcases List.mem_cons.mp hin with he | hin
        · exact Or.inl (by rw [hxp.1] at he; rw [he]; exact List.mem_cons_self p pre')
        · exact Or.inr hin

theorem wfLevels_WfL {ls : List Nat} (h : wfLevels ls = true) : WfL ls := by
  intro pre l post hs h2
  rcases wfLevelsAux_spec ls [] h pre l post hs h2 with hm | hm
  · exact hm
  · cases hm

theorem initial_inv {symbol : List Char} {events : List EventBinding} {lines : List (List Char)}
    {mi next : Nat} {mainData : ElementData} {cs : List (DomTree (ElementData × Nat) × Nat)}
    (hok : buildChildrenLoop symbol events lines (List.range' (mi + 1) (next - (mi + 1)))
      = Except.ok cs)
    (hgap : ∀ k, mi < k → k < next → jsLevel (lines.getD k []) ≠ 0)
    (hwfl : wfLevels ((List.range' (mi + 1) (next - (mi + 1))).map
      (fun k => jsLevel (lines.getD k []))) = true) :
    ReconInv (DomTree.node (mainData, mi) []) cs := by
  obtain ⟨hsnd, hroots, hleaf⟩ := buildChildrenLoop_shape hok
  refine ⟨?_, ?_, ?_, fun p hp => (hleaf p hp).2, docOrdered_leaf _, ?_, ?_⟩
  · rw [hroots]
    exact List.pairwise_lt_range' _ _
  · intro p hp
    have hmem : p.2 ∈ cs.map Prod.snd := List.mem_map_of_mem _ hp
    rw [hsnd] at hmem
    rcases List.mem_map.mp hmem with ⟨k, hk, hval⟩
    rcases List.mem_range'.mp hk with ⟨hk1, hk2⟩
    have hk3 : mi < k := by omega
    have hk4 : k < next := by omega
    have := hgap k hk3 hk4
    omega
  · rw [hsnd]
    exact wfLevels_WfL hwfl
  · intro c hc
    rw [show treeChildren (DomTree.node (mainData, mi) ([] : List (DomTree (ElementData × Nat))))
        = [] from rfl] at hc
    cases hc
  · intro p hp c hc
    rw [(hleaf p hp).1] at hc
    cases hc

theorem generateLoop_ordered {symbol : List Char} {events : List EventBinding}
    {lines : List (List Char)} :
    ∀ (ms : List (List Char × Nat)),
      GapsOK lines ms → wfMains lines ms = true →
      ∀ tr ∈ (generateLoop symbol events lines ms).1, DocOrdered tr := by
  intro ms
  induction ms with
  | nil =>
    intro _ _ tr htr
    cases htr
  | cons m rest ih =>
    rcases m with ⟨mainLine, mi⟩
    intro hgaps hwf tr htr
    obtain ⟨hgap, hgaps'⟩ := hgaps
    rw [show wfMains lines ((mainLine, mi) :: rest)
        = (wfLevels ((List.range' (mi + 1) (nextMainIdx lines rest - (mi + 1))).map
            (fun k => jsLevel (lines.getD k [])))
          && wfMains lines rest) from rfl, Bool.and_eq_true] at hwf
    rcases hwf with ⟨hwfl, hwfrest⟩
    rw [show generateLoop symbol events lines ((mainLine, mi) :: rest)
        = (match createElementFromLine symbol events mainLine with
           | .error e => ([], some e)
           | .ok mainData =>
             match buildChildrenLoop symbol events lines
                 (List.range' (mi + 1) (nextMainIdx lines rest - (mi + 1))) with
             | .error e => ([], some e)
             | .ok childrenElements =>
               ((buildTree (DomTree.node (mainData, mi) []) childrenElements)
                  :: (generateLoop symbol events lines rest).1,
                (generateLoop symbol events lines rest).2))
        from rfl] at htr
    rcases hmc : createElementFromLine symbol events mainLine with e | mainData <;>
      rw [hmc] at htr
    · cases htr
    · rcases hcc : buildChildrenLoop symbol events lines
          (List.range' (mi + 1) (nextMainIdx lines rest - (mi + 1))) with e | cs <;>
        rw [hcc] at htr
      · cases htr
      · rcases List.mem_cons.mp htr with he | hm
        · rw [he]
          refine buildTree_inv cs.length (DomTree.node (mainData, mi) []) cs rfl ?_
          exact initial_inv hcc hgap hwfl
        · exact ih hgaps' hwfrest tr hm

/-- Claim C1, amended: for every template in which each descendant line at
level at least 2 has an earlier line of its block exactly one level
shallower (`wfTemplate` — the counterexample shows the orphan fallback
breaks the order otherwise), every tree produced by `generate` is document
ordered: the children of the main element and of every descendant node
appear left-to-right in the same order as their lines appear in the
template. -/
theorem claim1_order_preservation :
    ∀ (b : Builder) (template : List Char),
      wfTemplate template = true →
      ∀ tr ∈ (generate b template).1.1, DocOrdered tr := by
  intro b template hwf tr htr
  unfold generate at htr
  split at htr
  · cases htr
  · exact generateLoop_ordered (mainLinesOf (extractLinesFrom template))
      (gaps_main (extractLinesFrom template)) hwf tr htr

/-- Claim C1, witness instance: the nested template of the second concrete
scenario is well formed and its generated tree is document ordered. -/
theorem claim1_witness :
    wfTemplate ("ul\n>li(A)\n>>li(B)\n>li(C)".data) = true
    ∧ DocOrdered ((DomTree.node
        ({ tag := "ul".data, classes := [], id := [], text := none,
           attributes := [], listeners := [] }, 0)
        [DomTree.node
          ({ tag := "li".data, classes := [], id := [], text := some ("A".data),
             attributes := [], listeners := [] }, 1)
          [DomTree.node
            ({ tag := "li".data, classes := [], id := [], text := some ("B".data),
               attributes := [], listeners := [] }, 2) []],
         DomTree.node
          ({ tag := "li".data, classes := [], id := [], text := some ("C".data),
             attributes := [], listeners := [] }, 3) []]) : DomTree (ElementData × Nat)) :=
  ⟨rfl,
   claim1_order_preservation freshBuilder ("ul\n>li(A)\n>>li(B)\n>li(C)".data) rfl _
     (List.Mem.head _)⟩

end ContextMenu
